import Mathlib

/-!
Shallow embedding of `edlCompress.py` (EDL container decompressor) and proofs
about it.  Python byte strings are modelled as `List Nat` (entries < 256 on
concrete inputs), Python's arbitrary-precision integers as `Nat`/`Int`, Python
`list` assignment as `List.set` (all index-writes relevant to the theorems are
in range; where an out-of-range access is reachable and observable, a checked
access returning `Except` is used instead, mirroring Python's `IndexError`).
Loops whose bound is not structural are given explicit fuel so that every
definition is executable by kernel reduction.
-/

namespace EdlSpec

/-- Read of `l[i]` on a Python list whose accesses are provably in range
(out of range yields the default 0). -/
def getL (l : List Nat) (i : Nat) : Nat := l.getD i 0

/-- Python errors observable in the source: raised `ValueError` (bad magic,
unsupported type, `erratta` on -8, -9, -12, negative shift), raised
`IndexError` (list/bytearray access out of range), plus an artificial
out-of-fuel marker for the fueled loops of the model. -/
inductive DErr where
  | indexError : DErr
  | valueError : DErr
  | fuelOut : DErr
deriving DecidableEq, Repr

/-- Checked Python list read `l[i]` for `i : Int`, with Python's negative-index
wrap-around and `IndexError` out of range. -/
def pyIdx (l : List Nat) (i : Int) : Except DErr Nat :=
  if 0 ≤ i ∧ i < (l.length : Int) then .ok (getL l i.toNat)
  else if -(l.length : Int) ≤ i ∧ i < 0 then .ok (getL l (l.length - (-i).toNat))
  else .error .indexError

/-- Checked Python bytearray write `l[i] = v`: `IndexError` out of range,
`ValueError` when the value is not a byte. -/
def pySetByte (l : List Nat) (i : Nat) (v : Int) : Except DErr (List Nat) :=
  if i < l.length then
    if 0 ≤ v ∧ v < 256 then .ok (l.set i v.toNat) else .error .valueError
  else .error .indexError

/-- Checked Python list write `l[i] = v` for `i : Int` (negative wrap, else
`IndexError`). -/
def pySet (l : List Nat) (i : Int) (v : Nat) : Except DErr (List Nat) :=
  if 0 ≤ i ∧ i < (l.length : Int) then .ok (l.set i.toNat v)
  else if -(l.length : Int) ≤ i ∧ i < 0 then .ok (l.set (l.length - (-i).toNat) v)
  else .error .indexError

/-- Little-endian value of a byte list, as computed by
`int.from_bytes(bytes, byteorder='little')`. -/
def leBytes : List Nat → Nat
  | [] => 0
  | b :: r => b + 256 * leBytes r

/-- Source `ByteSwap.swap`: 32-bit endian reversal. -/
def ByteSwap.swap (w : Nat) : Nat :=
  ((w >>> 24) ||| ((w >>> 8) &&& 0x0000ff00) ||| ((w <<< 8) &&& 0x00ff0000) |||
    (w <<< 24)) &&& 0xFFFFFFFF

/-- Source `EdlEndianType`. -/
inductive EdlEndianType where
  | Little : EdlEndianType
  | Big : EdlEndianType
deriving DecidableEq, Repr

/-- Source `EdlHeader` record. -/
structure EdlHeader where
  compression_type : Nat
  endian : EdlEndianType
  compressed_size : Nat
  decompressed_size : Nat
deriving DecidableEq, Repr

/-- Source `EdlHeader.parse`, reading the 12 header bytes of `F` (the stream
starts at offset 0).  Python raises on a bad magic and on a flag byte whose
high bit is not 0/1 (impossible for a byte); the model returns `none` there. -/
def EdlHeader.parse (F : List Nat) : Option EdlHeader :=
  if F.take 3 = [0x45, 0x44, 0x4C] then
    let ct := getL F 3
    let endian := if ct >>> 7 = 0 then EdlEndianType.Little else EdlEndianType.Big
    let cs0 := leBytes ((F.drop 4).take 4)
    let ds0 := leBytes ((F.drop 8).take 4)
    let cs := if endian = EdlEndianType.Big then ByteSwap.swap cs0 else cs0
    let ds := if endian = EdlEndianType.Big then ByteSwap.swap ds0 else ds0
    some ⟨ct &&& 0xF, endian, cs, ds⟩
  else none

/-- State shared with the refill helper: `acc` is `data[0]`, `pos` is
`pos[0]`, `rpos` is the underlying reader's current position
(`reader.tell()`). -/
structure BitSt where
  acc : Nat
  pos : Int
  rpos : Nat
deriving DecidableEq, Repr

/-- Source `__helper` (the bit refiller).  Returns the updated state together
with the new bit count.  Mirrors the source line by line: a bit count above 32
is returned unchanged; `x = min(4, decompressed_size - pos)` (an `Int`: the
source value may be negative); when the reader is at/past the end the state is
left alone and `x` is returned; otherwise four bytes are read little-endian at
`streamOffset + pos` (byte-swapped for big endian), `pos += x`,
`acc = (word <<< bitCount) ||| acc`, and `bitCount + 8 * x` is returned.
Python raises `ValueError` on a negative seek target or a negative shift
count. -/
def helper (F : List Nat) (streamOffset : Int) (hdr : EdlHeader) (st : BitSt)
    (bitCount : Int) : Except DErr (BitSt × Int) :=
  if bitCount > 32 then .ok (st, bitCount)
  else
    let readerSize : Nat := F.length
    let z := st.acc
    let x0 : Int := (hdr.decompressed_size : Int) - st.pos
    let x : Int := if x0 > 4 then 4 else x0
    if st.rpos ≥ readerSize then .ok (st, x)
    else
      let addr : Int := streamOffset + st.pos
      if addr < 0 then .error .valueError
      else
        let bytes := (F.drop addr.toNat).take 4
        let y0 := leBytes bytes
        let y := if hdr.endian = EdlEndianType.Little then y0 else ByteSwap.swap y0
        if bitCount < 0 then .error .valueError
        else
          .ok (⟨(y <<< bitCount.toNat) ||| z, st.pos + x, addr.toNat + bytes.length⟩,
            bitCount + x * 8)

/-! ## `__fill_buffer`, phase by phase

The source function is a single body of sequential loops; each loop is
embedded as its own recursive definition over the same state, and
`fill_buffer` composes them in source order. -/

/-- State of the occurrence pass (source lines 145-154): the `when` table,
the per-length `number` counts and the running counter `back`. -/
structure OccSt where
  whenL : List Nat
  number : List Nat
  back : Nat
deriving DecidableEq, Repr

/-- Inner loop of the occurrence pass: `for x in range(0, total)` for a fixed
length `y`; `r` is the remaining iteration count. -/
def occInner (what : List Nat) (y : Nat) : Nat → Nat → OccSt → OccSt
  | _, 0, st => st
  | x, r + 1, st =>
    let st' :=
      if getL what x = y then
        ⟨st.whenL.set st.back x, st.number.set y (getL st.number y + 1), st.back + 1⟩
      else st
    occInner what y (x + 1) r st'

/-- Outer loop of the occurrence pass: `for y in range(1, 16)`. -/
def occOuter (what : List Nat) (total : Nat) : Nat → Nat → OccSt → OccSt
  | _, 0, st => st
  | y, r + 1, st => occOuter what total (y + 1) r (occInner what y 0 total st)

/-- Inner loop of the sorting pass (source lines 156-163): write `z` copies of
the length `y` starting at position `x`. -/
def sortInner (y : Nat) : Nat → Nat → List Nat → List Nat × Nat
  | 0, x, what => (what, x)
  | z + 1, x, what => sortInner y z (x + 1) (what.set x y)

/-- Outer loop of the sorting pass: `for y in range(1, 16)`. -/
def sortOuter (number : List Nat) : Nat → Nat → Nat → List Nat → List Nat
  | _, 0, _, what => what
  | y, r + 1, x, what =>
    let p := sortInner y (getL number y) x what
    sortOuter number (y + 1) r p.2 p.1

/-- Bit-reversal loop of the bitsample pass (source lines 180-183):
`while y != 1: s = (s <<< 1) + (y &&& 1); y = y >>> 1`.  The fuel is always
called with at least `y`, which bounds the iteration count. -/
def bitrevAux : Nat → Nat → Nat → Nat
  | 0, _, s => s
  | f + 1, y, s => if y = 1 then s else bitrevAux f (y >>> 1) (2 * s + (y &&& 1))

/-- State of the bitsample pass (source lines 166-184): the `samp` table, the
recorded pre-reversal code of each entry (the value of `back` used for it,
recorded for the canonical-code theorems), the previous length `z` and the
running code `back`. -/
structure CodeSt where
  samp : List Nat
  codes : List Nat
  z : Nat
  back : Nat
deriving DecidableEq, Repr

/-- The bitsample loop: `for x in range(0, num)`. -/
def codeLoop (what : List Nat) : Nat → Nat → CodeSt → CodeSt
  | _, 0, st => st
  | x, r + 1, st =>
    let y := getL what x
    let back1 := if y ≠ st.z then st.back <<< (y - st.z) else st.back
    let z1 := if y ≠ st.z then y else st.z
    let yv := (1 <<< y) ||| back1
    let s := bitrevAux yv yv (getL st.samp x)
    codeLoop what (x + 1) r ⟨st.samp.set x s, st.codes.set x back1, z1, back1 + 1⟩

/-- State of the buffer-filling pass (source lines 186-199). -/
structure P4St where
  large : List Nat
  buf : List Nat
deriving DecidableEq, Repr

/-- Stride fill of a short code (source lines 189-193):
`while (z >>> bufSize) == 0: large[z] = (whenx <<< 7) + whatx; z += step`.
Called with fuel `1 <<< bufSize`, enough for every iteration that writes. -/
def strideFill (whenx whatx step bufSize : Nat) : Nat → Nat → List Nat → List Nat
  | 0, _, large => large
  | f + 1, z, large =>
    if z >>> bufSize = 0 then
      strideFill whenx whatx step bufSize f (z + step) (large.set z ((whenx <<< 7) + whatx))
    else large

/-- The buffer-filling loop: `for x in range(0, num)`; short codes stride-fill
`large`, long codes mark the scratch `buf`. -/
def primaryLoop (what whenL samp : List Nat) (bufSize : Nat) : Nat → Nat → P4St → P4St
  | _, 0, st => st
  | x, r + 1, st =>
    let back := getL what x
    let st' :=
      if back < bufSize then
        ⟨strideFill (getL whenL x) back (1 <<< back) bufSize (1 <<< bufSize)
          (getL samp x) st.large, st.buf⟩
      else
        ⟨st.large, st.buf.set (getL samp x &&& ((1 <<< bufSize) - 1)) back⟩
    primaryLoop what whenL samp bufSize (x + 1) r st'

/-- The overflow-header scan (source lines 201-218): walk `buf`; on a nonzero
entry `y`, with `y - bufSize > 8` return -8 immediately (flag `true`),
otherwise write the header `(z <<< 7) + ((y - bufSize) <<< 4)` into `large`
and advance the slot count `z` by `1 <<< (y - bufSize)`.  Returns the
(partially) updated `large`, the final `z` and the -8 flag. -/
def scanLoop (bufSize : Nat) (buf : List Nat) :
    Nat → Nat → Nat → List Nat → List Nat × Nat × Bool
  | _, 0, z, large => (large, z, false)
  | x, r + 1, z, large =>
    if getL buf x ≠ 0 then
      if getL buf x - bufSize > 8 then (large, z, true)
      else scanLoop bufSize buf (x + 1) r (z + (1 <<< (getL buf x - bufSize)))
        (large.set x ((z <<< 7) + ((getL buf x - bufSize) <<< 4)))
    else scanLoop bufSize buf (x + 1) r z large

/-- Overflow leaf fill for one long code (source lines 235-239):
`while (y >>> extra) == 0: large[y + base + (1 <<< bufSize)] = entry; y += step`.
Called with fuel `1 <<< extra`, enough for every writing iteration. -/
def leafFill (whenx whatx bufSize base extra : Nat) : Nat → Nat → List Nat → List Nat
  | 0, _, large => large
  | f + 1, y, large =>
    if y >>> extra = 0 then
      leafFill whenx whatx bufSize base extra f (y + (1 <<< (whatx - bufSize)))
        (large.set (y + base + (1 <<< bufSize)) ((whenx <<< 7) + whatx))
    else large

/-- The overflow leaf loop (source lines 226-239): for each long code, read
its primary-slot header and fill the secondary region. -/
def leafLoop (what whenL samp : List Nat) (bufSize : Nat) : Nat → Nat → List Nat → List Nat
  | _, 0, large => large
  | x, r + 1, large =>
    if getL what x < bufSize then leafLoop what whenL samp bufSize (x + 1) r large
    else
      let back := 1 <<< bufSize
      let z := getL large (getL samp x &&& (back - 1))
      let y0 := getL samp x >>> bufSize
      let extra := (z >>> 4) &&& 7
      let base := z >>> 7
      leafLoop what whenL samp bufSize (x + 1) r
        (leafFill (getL whenL x) (getL what x) bufSize base extra (1 <<< extra) y0 large)

/-- Result of `fill_buffer`: the (extended and filled) table passed as
`large`, the (sorted in place) `what` list, and the returned code. -/
structure FBOut where
  large : List Nat
  what : List Nat
  ret : Int
deriving DecidableEq, Repr

/-- Intermediate views of `fill_buffer`'s state, named so the theorems can
speak about them: the list extended to 0xC00 entries. -/
def fbExtend (large0 : List Nat) : List Nat :=
  large0 ++ List.replicate (0xC00 - large0.length) 0

/-- Occurrence pass output for given inputs. -/
def fbOcc (what0 : List Nat) (total num : Nat) : OccSt :=
  occOuter what0 total 1 15 ⟨List.replicate num 0, List.replicate 16 0, 0⟩

/-- The `what` list after the in-place sort. -/
def fbSorted (what0 : List Nat) (total num : Nat) : List Nat :=
  sortOuter (fbOcc what0 total num).number 1 15 0 what0

/-- The bitsample pass output (`samp`, recorded codes). -/
def fbCode (what0 : List Nat) (total num : Nat) : CodeSt :=
  codeLoop (fbSorted what0 total num) 0 num
    ⟨List.replicate num 0, List.replicate num 0, getL (fbSorted what0 total num) 0, 0⟩

/-- The buffer-filling pass output (`large` after primary fill, scratch `buf`). -/
def fbPrimary (large0 what0 : List Nat) (total num bufSize : Nat) : P4St :=
  primaryLoop (fbSorted what0 total num) (fbOcc what0 total num).whenL
    (fbCode what0 total num).samp bufSize 0 num
    ⟨fbExtend large0, List.replicate (1 <<< bufSize) 0⟩

/-- Source `__fill_buffer(large, what, total, num, buf_size)`, composed from
the phases above in source order. -/
def fill_buffer (large0 what0 : List Nat) (total num bufSize : Nat) : FBOut :=
  match scanLoop bufSize (fbPrimary large0 what0 total num bufSize).buf 0 (1 <<< bufSize) 0
      (fbPrimary large0 what0 total num bufSize).large with
  | (largeS, _, true) => ⟨largeS, fbSorted what0 total num, -8⟩
  | (largeS, zS, false) =>
    if zS > 0x1FF then ⟨largeS, fbSorted what0 total num, -9⟩
    else ⟨leafLoop (fbSorted what0 total num) (fbOcc what0 total num).whenL
      (fbCode what0 total num).samp bufSize 0 num largeS, fbSorted what0 total num, 0⟩

/-! ## The EDL-0 path and the EDL-1 decoder

The decoder is modelled for a reader whose initial position is 0, so
`stream_offset = 0` (the setting of every claim).  Every Python local of
`__decompress_edl1` that survives across loop iterations or frames
(`x, y, z, stack, num, back` and the buffers) is part of the state record
`DSt` and every assignment is threaded in source order. -/

/-- Source `__decompress_edl0` (with `stream_offset = 0`): `length` is
`min(file_size - 12, decompressed_size)` as a Python (possibly negative)
integer; `read` of a negative length returns everything after the header. -/
def decompress_edl0 (F : List Nat) (hdr : EdlHeader) : List Nat :=
  let readerSize : Int := (F.length : Int) - 12
  let length : Int := min readerSize (hdr.decompressed_size : Int)
  if length < 0 then F.drop 12 else (F.drop 12).take length.toNat

/-- Source `table1` (length bases). -/
def table1 : List Nat :=
  [0x00, 0x01, 0x02, 0x03, 0x04, 0x05, 0x06, 0x07, 0x08, 0x0A,
   0x0C, 0x0E, 0x10, 0x14, 0x18, 0x1C, 0x20, 0x28, 0x30, 0x38,
   0x40, 0x50, 0x60, 0x70, 0x80, 0xA0, 0xC0, 0xE0, 0xFF, 0x00,
   0x00, 0x00]

/-- Source `table2` (length extra bits). -/
def table2 : List Nat :=
  [0x00, 0x00, 0x00, 0x00, 0x00, 0x00, 0x00, 0x00, 0x01, 0x01,
   0x01, 0x01, 0x02, 0x02, 0x02, 0x02, 0x03, 0x03, 0x03, 0x03,
   0x04, 0x04, 0x04, 0x04, 0x05, 0x05, 0x05, 0x05, 0x00, 0x00,
   0x00, 0x00]

/-- Source `table3` (distance bases, 30 entries). -/
def table3 : List Nat :=
  [0x00, 0x01, 0x02, 0x03, 0x04, 0x06, 0x08, 0x0C, 0x10, 0x18,
   0x20, 0x30, 0x40, 0x60, 0x80, 0xC0, 0x100, 0x180, 0x200, 0x300,
   0x400, 0x600, 0x800, 0xC00, 0x1000, 0x1800, 0x2000, 0x3000, 0x4000, 0x6000]

/-- Source `table4` (distance extra bits). -/
def table4 : List Nat :=
  [0, 0, 0, 0, 1, 1, 2, 2, 3, 3,
   4, 4, 5, 5, 6, 6, 7, 7, 8, 8,
   9, 9, 0xA, 0xA, 0xB, 0xB, 0xC, 0xC, 0xD, 0xD, 0, 0]

/-- Full state of `__decompress_edl1`.  `x` is an `Int` because it
transiently holds `fill_buffer`'s return code; `z` is an `Int` because the
copy loop sets it to `array_index - back`, which may be negative.  The other
scratch variables only ever hold non-negative values in the source. -/
structure DSt where
  acc : Nat
  count : Int
  pos : Int
  rpos : Nat
  x : Int
  y : Nat
  z : Int
  stack : Nat
  num : Nat
  back : Nat
  largeT : List Nat
  smallT : List Nat
  whatT : List Nat
  result : List Nat
  arrayIndex : Nat
deriving DecidableEq, Repr

/-- The decoder's `count = self.__helper(data, count, reader, 0, pos, header)`
call pattern. -/
def dHelper (F : List Nat) (hdr : EdlHeader) (s : DSt) : Except DErr DSt :=
  match helper F 0 hdr ⟨s.acc, s.pos, s.rpos⟩ s.count with
  | .error e => .error e
  | .ok (b, c) => .ok { s with acc := b.acc, pos := b.pos, rpos := b.rpos, count := c }

/-- Source `__erratta`: raises for -8, -9, -12, returns otherwise (an unknown
negative code is only printed). -/
def erratta (code : Int) : Except DErr Unit :=
  if code ≥ 0 then .ok ()
  else if code = -8 then .error .valueError
  else if code = -9 then .error .valueError
  else if code = -12 then .error .valueError
  else .ok ()

/-- Outcome of a decoder segment: either the next state, or an early
`return` with the produced bytes. -/
inductive Flow where
  | cont : DSt → Flow
  | done : List Nat → Flow
deriving DecidableEq, Repr

/-- Shared body of both nibble-reading table loops (source lines 331-348 and
367-383): read a flag bit; if set, read a fresh 4-bit `stack` nibble;
store `stack` into `what[y]` and count it when non-zero. -/
def nibbleBody (F : List Nat) (hdr : EdlHeader) (s : DSt) : Except DErr DSt := do
  let s ← dHelper F hdr s
  let b : Nat := s.acc &&& 1
  let s := { s with back := b, acc := s.acc >>> 1, count := s.count - 1 }
  let s ←
    if b ≠ 0 then do
      let s2 ← dHelper F hdr s
      pure { s2 with stack := s2.acc &&& 0xF, acc := s2.acc >>> 4, count := s2.count - 4 }
    else pure s
  let w ← pySet s.whatT (s.y : Int) s.stack
  pure { s with whatT := w, num := if s.stack ≠ 0 then s.num + 1 else s.num }

/-- The large table's nibble loop `while y < x` (source lines 330-349); `y`
persists across frames, so the loop may start from a stale value.  The fuel
is `(x - y).toNat` at entry, the exact iteration count. -/
def largeFillLoop (F : List Nat) (hdr : EdlHeader) : Nat → DSt → Except DErr DSt
  | 0, s => if (s.y : Int) < s.x then .error .fuelOut else .ok s
  | f + 1, s =>
    if (s.y : Int) < s.x then do
      let s ← nibbleBody F hdr s
      largeFillLoop F hdr f { s with y := s.y + 1 }
    else .ok s

/-- The small table's nibble loop `for y in range(0, x)` (source lines
366-384): `y` is re-assigned at each iteration and holds `x - 1` after the
loop. -/
def smallFillLoop (F : List Nat) (hdr : EdlHeader) : Nat → Nat → DSt → Except DErr DSt
  | _, 0, s => .ok s
  | i, r + 1, s => do
    let s ← nibbleBody F hdr { s with y := i }
    smallFillLoop F hdr (i + 1) r s

/-- Mode-1 large-table construction (source lines 319-355 up to `erratta`):
read the 9-bit count; when non-zero, zero `what`, run the nibble loop and
call `fill_buffer(large, what, x, num, 10)`. -/
def buildLarge (F : List Nat) (hdr : EdlHeader) (s : DSt) : Except DErr DSt := do
  let s ← dHelper F hdr s
  let xv : Nat := s.acc &&& 0x1FF
  let s := { s with x := (xv : Int), acc := s.acc >>> 9, count := s.count - 9 }
  if xv ≠ 0 then do
    let s := { s with whatT := List.replicate s.whatT.length 0, num := 0 }
    let s ← largeFillLoop F hdr ((s.x - (s.y : Int)).toNat) s
    let out := fill_buffer s.largeT s.whatT xv s.num 10
    pure { s with largeT := out.large, whatT := out.what, x := out.ret }
  else pure s

/-- Mode-1 small-table construction (source lines 357-387): read the 9-bit
count; when non-zero, allocate a fresh `what`, run the nibble loop and call
`fill_buffer(small_array, what, x, num, 8)`. -/
def buildSmall (F : List Nat) (hdr : EdlHeader) (s : DSt) : Except DErr DSt := do
  let s ← dHelper F hdr s
  let xv : Nat := s.acc &&& 0x1FF
  let s := { s with x := (xv : Int), acc := s.acc >>> 9, count := s.count - 9 }
  if xv ≠ 0 then do
    let s := { s with whatT := List.replicate 0x400 0, num := 0 }
    let s ← smallFillLoop F hdr 0 xv s
    let out := fill_buffer s.smallT s.whatT xv s.num 8
    pure { s with smallT := out.large, whatT := out.what, x := out.ret }
  else pure s

/-- The back-reference copy run (source lines 472-486): copy `num` bytes
from distance `back`, emitting 0 for positions before the start of the
output; each write is range-checked like the Python bytearray write, and the
post-increment `array_index > decompressed_size` check returns the prefix. -/
def copyLoop (hdr : EdlHeader) : Nat → DSt → Except DErr Flow
  | 0, s => .ok (.cont s)
  | n + 1, s => do
    let s := { s with z := (s.arrayIndex : Int) - (s.back : Int) }
    let xv : Nat ←
      if s.z < (0 : Int) ∨ (s.arrayIndex : Int) ≤ s.z then pure 0
      else pyIdx s.result ((s.arrayIndex : Int) - (s.back : Int))
    let s := { s with x := (xv : Int) }
    let r ← pySetByte s.result s.arrayIndex s.x
    let s := { s with result := r, arrayIndex := s.arrayIndex + 1 }
    if s.arrayIndex > hdr.decompressed_size then
      pure (.done (s.result.take s.arrayIndex))
    else copyLoop hdr n { s with num := n }

/-- Symbol decode against a two-level table (source lines 394-419 for the
large table with peek shift 10 and overflow offset 0x400, and lines 439-459
for the small table with peek shift 8 and offset 0x100): mask the
accumulator, look up the primary entry, follow the overflow header when the
length field is zero, then consume the code's bits.  The `distMask` flag
selects the small table's `(x &&& 0x70) >>> 4` form of the extra-bits
field. -/
def decodeSym (F : List Nat) (hdr : EdlHeader) (tbl : DSt → List Nat)
    (mask peekShift ovf : Nat) (distMask : Bool) (s : DSt) : Except DErr DSt := do
  let s ← dHelper F hdr s
  let i0 : Nat := s.acc &&& mask
  let e0 ← pyIdx (tbl s) (Int.ofNat i0)
  let z0 : Nat := if distMask then (e0 &&& 0x70) >>> 4 else (e0 >>> 4) &&& 7
  let s := { s with x := Int.ofNat e0, y := e0 &&& 0xF, z := Int.ofNat z0 }
  let s ←
    if s.y = 0 then do
      let x1 : Nat := e0 >>> 7
      let s := { s with x := Int.ofNat x1, y := (1 <<< z0) - 1 }
      let s ← dHelper F hdr s
      let yv : Nat := (s.acc >>> peekShift) &&& s.y
      let s := { s with y := yv, x := s.x + Int.ofNat yv }
      let e1 ← pyIdx (tbl s) (s.x + Int.ofNat ovf)
      pure { s with x := Int.ofNat e1, y := e1 &&& 0xF }
    else pure s
  let s := { s with acc := s.acc >>> s.y, count := s.count - Int.ofNat s.y }
  pure { s with y := 0, x := Int.ofNat (s.x.toNat >>> 7) }

/-- An extra-bits segment (source lines 428-434, 461-466): when `zv` is
non-zero, refill and read `zv` bits into `y`; `y` was reset to 0 before. -/
def extraBits (F : List Nat) (hdr : EdlHeader) (s : DSt) : Except DErr DSt := do
  if s.z ≠ 0 then
    let s ← dHelper F hdr s
    let yv : Nat := s.acc &&& ((1 <<< s.z.toNat) - 1)
    pure { s with y := yv, acc := s.acc >>> s.z.toNat, count := s.count - s.z }
  else pure s

/-- The back-reference arm of the emit loop (source lines 426-486). -/
def emitBackref (F : List Nat) (hdr : EdlHeader) (s : DSt) : Except DErr Flow := do
  let t2 ← pyIdx table2 (s.x - 0x101)
  let s ← extraBits F hdr { s with z := Int.ofNat t2 }
  let t1 ← pyIdx table1 (s.x - 0x101)
  let s := { s with z := Int.ofNat t1, num := t1 + s.y + 3 }
  let s ← decodeSym F hdr (fun s => s.smallT) 0xFF 8 0x100 true s
  let t4 ← pyIdx table4 s.x
  let s ← extraBits F hdr { s with z := Int.ofNat t4 }
  let t3 ← pyIdx table3 s.x
  let s := { s with z := Int.ofNat t3, back := t3 + s.y + 1 }
  copyLoop hdr s.num { s with x := 0 }

/-- One iteration of the mode-1 emit loop (source lines 392-495): decode
against the large table, then handle a literal, the 0x100 sentinel, or a
back-reference. -/
def emitStep (F : List Nat) (hdr : EdlHeader) (s : DSt) : Except DErr Flow := do
  let s ← decodeSym F hdr (fun s => s.largeT) 0x3FF 10 0x400 false s
  if s.x < 0x100 then do
    let r ← pySetByte s.result s.arrayIndex s.x
    let s := { s with result := r, arrayIndex := s.arrayIndex + 1 }
    if s.arrayIndex > hdr.decompressed_size then
      pure (.done (s.result.take s.arrayIndex))
    else pure (.cont s)
  else if s.x > 0x100 then emitBackref F hdr s
  else pure (.cont s)

/-- The mode-1 emit loop `while x != 0x100` (source lines 392-496). -/
def emitLoop (F : List Nat) (hdr : EdlHeader) : Nat → DSt → Except DErr Flow
  | 0, s => if s.x = 0x100 then .ok (.cont s) else .error .fuelOut
  | f + 1, s =>
    if s.x = 0x100 then .ok (.cont s)
    else
      match emitStep F hdr s with
      | .error e => .error e
      | .ok (.done out) => .ok (.done out)
      | .ok (.cont s1) => emitLoop F hdr f s1

/-- Mode-1 frame body: build the two tables (each reported through
`erratta`), then emit until the 0x100 sentinel. -/
def mode1 (F : List Nat) (hdr : EdlHeader) (fuel : Nat) (s : DSt) : Except DErr Flow := do
  let s ← buildLarge F hdr s
  let _ ← erratta s.x
  let s ← buildSmall F hdr s
  let _ ← erratta s.x
  emitLoop F hdr fuel s

/-- Mode-0 raw-byte loop (source lines 505-513): no overflow check guards
the write, exactly as in the source. -/
def mode0Loop (F : List Nat) (hdr : EdlHeader) : Nat → DSt → Except DErr DSt
  | 0, s => .ok s
  | n + 1, s => do
    let s ← dHelper F hdr s
    let xv : Nat := s.acc &&& 0xFF
    let s := { s with x := (xv : Int), acc := s.acc >>> 8, count := s.count - 8 }
    let r ← pySetByte s.result s.arrayIndex s.x
    mode0Loop F hdr n { s with result := r, arrayIndex := s.arrayIndex + 1, num := n }

/-- Mode-0 frame body (source lines 499-513): read the 15-bit count, then
emit that many raw bytes. -/
def mode0 (F : List Nat) (hdr : EdlHeader) (s : DSt) : Except DErr DSt := do
  let s ← dHelper F hdr s
  let nv : Nat := s.acc &&& 0x7FFF
  let s := { s with num := nv, acc := s.acc >>> 15, count := s.count - 15 }
  if nv ≠ 0 then mode0Loop F hdr nv s else pure s

/-- One frame body (source lines 308-514): refill, read the mode bit,
dispatch to mode 1 or mode 0.  (The scratch bytearray `bits` that the source
zeroes at line 309-310 is never read, so it is not part of the state.) -/
def frameBody (F : List Nat) (hdr : EdlHeader) (fuel : Nat) (s : DSt) :
    Except DErr Flow := do
  let s ← dHelper F hdr s
  let m : Nat := s.acc &&& 1
  let s := { s with x := (m : Int), acc := s.acc >>> 1, count := s.count - 1 }
  if m ≠ 0 then mode1 F hdr fuel s
  else do
    let s ← mode0 F hdr s
    pure (.cont s)

/-- The end-of-frame EOF test (source lines 516-521): read one bit straight
from the accumulator; the flag says whether to return. -/
def edl1EofStep (s : DSt) : DSt × Bool :=
  let x : Nat := s.acc &&& 1
  ({ s with x := (x : Int), acc := s.acc >>> 1, count := s.count - 1 }, x != 0)

/-- The outer frame loop `while pos <= compressed_size` (source lines
306-523): on an EOF bit of 1 return the whole `result`, on loop exit return
`result[:array_index]`. -/
def frameLoop (F : List Nat) (hdr : EdlHeader) : Nat → DSt → Except DErr (List Nat)
  | 0, _ => .error .fuelOut
  | fuel + 1, s =>
    if s.pos ≤ (hdr.compressed_size : Int) then
      match frameBody F hdr (fuel + 1) s with
      | .error e => .error e
      | .ok (.done out) => .ok out
      | .ok (.cont s1) =>
        if (edl1EofStep s1).2 then .ok (edl1EofStep s1).1.result
        else frameLoop F hdr fuel (edl1EofStep s1).1
    else .ok (s.result.take s.arrayIndex)

/-- Initial state of `__decompress_edl1` (source lines 254-305): buffers of
0x600, 0x600 and 0x400 entries, the output buffer allocated at
`decompressed_size`, and `pos = 12`. -/
def edl1Init (hdr : EdlHeader) (rpos0 : Nat) : DSt where
  acc := 0
  count := 0
  pos := 12
  rpos := rpos0
  x := 0
  y := 0
  z := 0
  stack := 0
  num := 0
  back := 0
  largeT := List.replicate 0x600 0
  smallT := List.replicate 0x600 0
  whatT := List.replicate 0x400 0
  result := List.replicate hdr.decompressed_size 0
  arrayIndex := 0

/-- Source `__decompress_edl1` for a stream at offset 0, with loop fuel. -/
def decompress_edl1 (F : List Nat) (hdr : EdlHeader) (rpos0 fuel : Nat) :
    Except DErr (List Nat) :=
  frameLoop F hdr fuel (edl1Init hdr rpos0)

/-- Modelled from the spec: §4.4 step 4 reads "Refill; read 1-bit EOF
marker.  If 1, return the buffer (complete).  Else continue the frame loop."
This variant of `frameLoop` differs from the source's loop only in
performing that refill before the EOF test, for comparison against the
source behaviour; everything else is shared with `frameLoop`. -/
def frameLoopClaim (F : List Nat) (hdr : EdlHeader) : Nat → DSt → Except DErr (List Nat)
  | 0, _ => .error .fuelOut
  | fuel + 1, s =>
    if s.pos ≤ (hdr.compressed_size : Int) then
      match frameBody F hdr (fuel + 1) s with
      | .error e => .error e
      | .ok (.done out) => .ok out
      | .ok (.cont s1) =>
        match dHelper F hdr s1 with
        | .error e => .error e
        | .ok s2 =>
          if (edl1EofStep s2).2 then .ok (edl1EofStep s2).1.result
          else frameLoopClaim F hdr fuel (edl1EofStep s2).1
    else .ok (s.result.take s.arrayIndex)

/-- The EDL-1 decoder as the claim describes it (refill before the EOF bit). -/
def decompress_edl1_claim (F : List Nat) (hdr : EdlHeader) (rpos0 fuel : Nat) :
    Except DErr (List Nat) :=
  frameLoopClaim F hdr fuel (edl1Init hdr rpos0)

/-- Source `__decompress_as_bytearray` for a reader positioned at 0: parse
the header (raising `ValueError` on a bad magic), then dispatch on the
compression type.  After a successful parse the reader sits at
`min 12 F.length`. -/
def decompress (F : List Nat) (fuel : Nat) : Except DErr (List Nat) :=
  match EdlHeader.parse F with
  | none => .error .valueError
  | some h =>
    if h.compression_type = 0 then .ok (decompress_edl0 F h)
    else if h.compression_type = 1 then decompress_edl1 F h (min 12 F.length) fuel
    else .error .valueError

/-! ## Named values and concrete inputs used by the theorems -/

/-- The 32-bit word `helper` assembles at stream position `p`: the
little-endian value of the four bytes at `off + p`, byte-swapped for a
big-endian header (source lines 115-120). -/
def edlWord (F : List Nat) (off : Int) (hdr : EdlHeader) (p : Int) : Nat :=
  let y0 := leBytes ((F.drop (off + p).toNat).take 4)
  if hdr.endian = EdlEndianType.Little then y0 else ByteSwap.swap y0

/-- A 16-byte EDL-1 container (type 1, compressed_size 16, decompressed_size
2) whose payload word 1 selects mode 1 with both table counts 0, so the emit
loop decodes literal 0 forever against the all-zero table. -/
def Fcrash : List Nat :=
  [0x45, 0x44, 0x4C, 0x01, 0x10, 0, 0, 0, 0x02, 0, 0, 0, 0x01, 0, 0, 0]

/-- A 24-byte EDL-1 container (type 1, compressed_size 20, decompressed_size
100) with two mode-0 frames: frame 1 emits two zero bytes and leaves the bit
count at exactly 32 at the EOF test with the reader not exhausted, so a
refill there (and only there) advances `pos` past `compressed_size`. -/
def Feof : List Nat :=
  [0x45, 0x44, 0x4C, 0x01, 0x14, 0, 0, 0, 0x64, 0, 0, 0,
   0x04, 0, 0, 0, 0x00, 0x00, 0x02, 0x00, 0, 0, 0, 0]

/-- The header of `Feof`. -/
def Heof : EdlHeader := ⟨1, .Little, 20, 100⟩

/-- Some scratch-`buf` entry in the first `n` slots is non-zero with
`value - k > 8` (the -8 condition of the overflow scan). -/
def hasBad (buf : List Nat) (k n : Nat) : Prop :=
  ∃ i, i < n ∧ getL buf i ≠ 0 ∧ getL buf i - k > 8

instance (buf : List Nat) (k n : Nat) : Decidable (hasBad buf k n) := by
  unfold hasBad; infer_instance

/-- Overflow-slot demand of the scratch-`buf` window `[x, x + r)`: the scan's
`1 <<< (value - k)` summed over the non-zero slots. -/
def ovWin (buf : List Nat) (k : Nat) : Nat → Nat → Nat
  | _, 0 => 0
  | x, r + 1 =>
    (if getL buf x ≠ 0 then 1 <<< (getL buf x - k) else 0) + ovWin buf k (x + 1) r

/-- Number of positions `i ∈ [x, x + r)` with `what[i] = y` (what the
occurrence pass counts for length `y`). -/
def occCnt (what : List Nat) (y : Nat) : Nat → Nat → Nat
  | _, 0 => 0
  | x, r + 1 => (if getL what x = y then 1 else 0) + occCnt what y (x + 1) r

/-- Number of positions `i < total` whose value lies in `[1, v]`:
the sum of the occurrence counts of the lengths up to `v`. -/
def sumCnt (what : List Nat) (total : Nat) : Nat → Nat
  | 0 => 0
  | v + 1 => sumCnt what total v + occCnt what (v + 1) 0 total

/-- Sum of the `number` counts over the length window `[y, y + r)` (the
number of cells the sorting pass writes for those lengths). -/
def winSum (number : List Nat) : Nat → Nat → Nat
  | _, 0 => 0
  | y, r + 1 => getL number y + winSum number (y + 1) r

/-- The canonical code of sorted entry `n` for a length assignment `L`:
entry 0 gets 0, and each next entry is the previous code plus one, shifted
left by the length increase (exactly the evolution of `back` in the source's
bitsample pass under nondecreasing lengths). -/
def codeVal (L : Nat → Nat) : Nat → Nat
  | 0 => 0
  | n + 1 => (codeVal L n + 1) <<< (L (n + 1) - L n)

/-- Decidable equality of `Except` results, for the concrete evaluations. -/
instance {e a : Type} [DecidableEq e] [DecidableEq a] : DecidableEq (Except e a) := fun u v =>
  match u, v with
  | .ok x, .ok y => if h : x = y then .isTrue (by rw [h]) else .isFalse (by simp [h])
  | .error x, .error y => if h : x = y then .isTrue (by rw [h]) else .isFalse (by simp [h])
  | .ok _, .error _ => .isFalse (by simp)
  | .error _, .ok _ => .isFalse (by simp)

/-! ## Theorems -/

/-- Reading a just-written in-range cell. -/
theorem getL_set_self (l : List Nat) (i v : Nat) (h : i < l.length) :
    getL (l.set i v) i = v := by
  simp [getL, List.getD, List.getElem?_set_self h]

/-- Reading any other cell. -/
theorem getL_set_ne (l : List Nat) {i j : Nat} (v : Nat) (h : i ≠ j) :
    getL (l.set i v) j = getL l j := by
  simp [getL, List.getD, List.getElem?_set_ne h]

/-- A written list reads either the new value or the old one. -/
theorem getL_set_cases (l : List Nat) (i j v : Nat) :
    getL (l.set i v) j = v ∨ getL (l.set i v) j = getL l j := by
  by_cases h : i = j
  · subst h
    by_cases hl : i < l.length
    · exact Or.inl (getL_set_self l i v hl)
    · right; rw [List.set_eq_of_length_le (by omega)]
  · exact Or.inr (getL_set_ne l v h)

/-- Cells of a replicate-0 list read 0. -/
theorem getL_replicate_zero (n i : Nat) : getL (List.replicate n 0) i = 0 := by
  by_cases h : i < n
  · simp [getL, List.getD, List.getElem?_replicate, h]
  · simp [getL, List.getD, List.getElem?_eq_none (by simpa using by omega : (List.replicate n 0).length ≤ i)]

/-- C6: the refill operation with headroom (`current_bits > 32`) returns the
bit count unchanged and changes no state; otherwise, on a non-exhausted
source, it assembles the (endian-corrected) 32-bit word at
`stream_offset + pos`, sets `acc := (word <<< current_bits) ||| acc`,
advances `pos` by `x = min 4 (decompressed_size - pos)` and returns
`current_bits + x * 8`. -/
theorem helper_refill_spec (F : List Nat) (off : Int) (hdr : EdlHeader) (st : BitSt)
    (bc : Int) (hb : 0 ≤ bc) (hoff : 0 ≤ off + st.pos) :
    (bc > 32 → helper F off hdr st bc = .ok (st, bc)) ∧
    (bc ≤ 32 → st.rpos < F.length →
      helper F off hdr st bc =
        .ok (⟨(edlWord F off hdr st.pos <<< bc.toNat) ||| st.acc,
              st.pos + min 4 ((hdr.decompressed_size : Int) - st.pos),
              (off + st.pos).toNat + ((F.drop (off + st.pos).toNat).take 4).length⟩,
          bc + (min 4 ((hdr.decompressed_size : Int) - st.pos)) * 8)) := by
  constructor
  · intro h
    simp [helper, h]
  · intro h1 h2
    have hmin : (if ((hdr.decompressed_size : Int) - st.pos) > 4 then (4 : Int)
        else ((hdr.decompressed_size : Int) - st.pos)) =
        min 4 ((hdr.decompressed_size : Int) - st.pos) := by omega
    simp only [helper, if_neg (by omega : ¬ bc > 32),
      if_neg (by omega : ¬ st.rpos ≥ F.length),
      if_neg (by omega : ¬ off + st.pos < 0),
      if_neg (by omega : ¬ bc < 0), hmin, edlWord]

/-- C6 witness: a concrete non-exhausted refill. -/
theorem helper_refill_spec_witness :
    helper (List.replicate 16 0) 0 ⟨1, .Little, 16, 100⟩ ⟨9, 12, 12⟩ 0 =
      .ok (⟨(edlWord (List.replicate 16 0) 0 ⟨1, .Little, 16, 100⟩ 12 <<< (0 : Int).toNat) ||| 9,
            12 + min 4 ((100 : Int) - 12),
            ((0 : Int) + 12).toNat + (((List.replicate 16 0).drop ((0 : Int) + 12).toNat).take 4).length⟩,
        0 + (min 4 ((100 : Int) - 12)) * 8) :=
  (helper_refill_spec (List.replicate 16 0) 0 ⟨1, .Little, 16, 100⟩ ⟨9, 12, 12⟩ 0
    (by decide) (by decide)).2 (by decide) (by decide)

/-- C7 counterexample: an exhausted refill with `current_bits = 7 ≤ 32`
returns 4 (the byte-clamp `min 4 (decompressed_size - pos)`), not the
incoming 7 the claim states. -/
theorem helper_exhausted_cex :
    helper (List.replicate 16 0) 0 ⟨1, .Little, 16, 100⟩ ⟨5, 0, 16⟩ 7 =
      .ok (⟨5, 0, 16⟩, 4) ∧ (4 : Int) ≠ 7 := by
  exact ⟨rfl, by decide⟩

/-- C7 (amended): an exhausted refill with `current_bits ≤ 32` leaves the
accumulator and positions unchanged but returns
`min 4 (decompressed_size - pos)` instead of the incoming bit count. -/
theorem helper_exhausted_returns_clamp (F : List Nat) (off : Int) (hdr : EdlHeader)
    (st : BitSt) (bc : Int) (h1 : bc ≤ 32) (h2 : F.length ≤ st.rpos) :
    helper F off hdr st bc = .ok (st, min 4 ((hdr.decompressed_size : Int) - st.pos)) := by
  have hmin : (if ((hdr.decompressed_size : Int) - st.pos) > 4 then (4 : Int)
      else ((hdr.decompressed_size : Int) - st.pos)) =
      min 4 ((hdr.decompressed_size : Int) - st.pos) := by omega
  simp only [helper, if_neg (by omega : ¬ bc > 32),
    if_pos (by omega : st.rpos ≥ F.length), hmin]

/-- C7 witness: the amended statement at a concrete exhausted call. -/
theorem helper_exhausted_returns_clamp_witness :
    helper (List.replicate 16 0) 0 ⟨1, .Little, 16, 100⟩ ⟨5, 0, 16⟩ 7 =
      .ok (⟨5, 0, 16⟩, min 4 ((100 : Int) - 0)) :=
  helper_exhausted_returns_clamp (List.replicate 16 0) 0 ⟨1, .Little, 16, 100⟩
    ⟨5, 0, 16⟩ 7 (by decide) (by decide)

/-- C1: for a valid EDL-0 container at stream offset 0 (parsed header with
compression type 0 and at least the 12 header bytes present), `decompress`
returns exactly `min (len F - 12) decompressed_size` payload bytes copied
verbatim from offset 12. -/
theorem edl0_copies_payload (F : List Nat) (h : EdlHeader) (fuel : Nat)
    (hp : EdlHeader.parse F = some h) (ht : h.compression_type = 0)
    (hl : 12 ≤ F.length) :
    decompress F fuel = .ok ((F.drop 12).take (min (F.length - 12) h.decompressed_size)) := by
  have hlen : ¬ (min ((F.length : Int) - 12) (h.decompressed_size : Int) < 0) := by omega
  have harg : (min ((F.length : Int) - 12) (h.decompressed_size : Int)).toNat =
      min (F.length - 12) h.decompressed_size := by omega
  simp only [decompress, hp, ht, if_pos rfl, decompress_edl0, if_neg hlen, harg]
  simp

/-- C1 witness: the spec's concrete EDL-0 scenario (payload `DE AD BE EF`). -/
theorem edl0_copies_payload_witness :
    decompress [0x45, 0x44, 0x4C, 0x00, 0x04, 0, 0, 0, 0x04, 0, 0, 0, 0xDE, 0xAD, 0xBE, 0xEF] 0 =
      .ok (([0x45, 0x44, 0x4C, 0x00, 0x04, 0, 0, 0, 0x04, 0, 0, 0, 0xDE, 0xAD, 0xBE, 0xEF].drop 12).take
        (min ([0x45, 0x44, 0x4C, 0x00, 0x04, 0, 0, 0, 0x04, 0, 0, 0, 0xDE, 0xAD, 0xBE, 0xEF].length - 12) 4)) :=
  edl0_copies_payload _ ⟨0, .Little, 4, 4⟩ 0 (by decide) rfl (by decide)

set_option maxRecDepth 10000 in
/-- C2: on `Fcrash` (decompressed_size 2) the mode-1 emit loop's third
literal write `result[2]` raises `IndexError`: the decoder fails hard
instead of returning the already-written prefix, because `result` has
exactly `decompressed_size` cells and the `array_index > decompressed_size`
failsafe test sits after a write that already faults. -/
theorem edl1_overflow_crash : decompress Fcrash 64 = .error .indexError := by
  decide

/-- `strideFill` preserves the list length. -/
theorem strideFill_length (whenx whatx step bufSize : Nat) :
    ∀ f z large, (strideFill whenx whatx step bufSize f z large).length = large.length := by
  intro f
  induction f with
  | zero => intro z large; rfl
  | succ f ih =>
    intro z large
    unfold strideFill
    split
    · rw [ih]; simp
    · rfl

/-- `primaryLoop` preserves the `large` length. -/
theorem primaryLoop_large_length (what whenL samp : List Nat) (bufSize : Nat) :
    ∀ r x st, ((primaryLoop what whenL samp bufSize x r st).large).length = st.large.length := by
  intro r
  induction r with
  | zero => intro x st; rfl
  | succ r ih =>
    intro x st
    unfold primaryLoop
    rw [ih]
    split <;> simp [strideFill_length]

/-- The scan preserves the `large` length. -/
theorem scanLoop_large_length (bufSize : Nat) (buf : List Nat) :
    ∀ r x z large, ((scanLoop bufSize buf x r z large).1).length = large.length := by
  intro r
  induction r with
  | zero => intro x z large; rfl
  | succ r ih =>
    intro x z large
    unfold scanLoop
    split
    · split
      · rfl
      · rw [ih]; simp
    · rw [ih]


/-- `leafFill` preserves the list length. -/
theorem leafFill_length (whenx whatx bufSize base extra : Nat) :
    ∀ f y large, (leafFill whenx whatx bufSize base extra f y large).length = large.length := by
  intro f
  induction f with
  | zero => intro y large; rfl
  | succ f ih =>
    intro y large
    unfold leafFill
    split
    · rw [ih]; simp
    · rfl

/-- `leafLoop` preserves the list length. -/
theorem leafLoop_length (what whenL samp : List Nat) (bufSize : Nat) :
    ∀ r x large, (leafLoop what whenL samp bufSize x r large).length = large.length := by
  intro r
  induction r with
  | zero => intro x large; rfl
  | succ r ih =>
    intro x large
    unfold leafLoop
    split
    · rw [ih]
    · rw [ih, leafFill_length]

/-- Shared: `fill_buffer` leaves the table it was handed at exactly 0xC00
entries whenever it arrived no larger than that. -/
theorem fill_buffer_large_length (large0 what0 : List Nat) (total num k : Nat)
    (hle : large0.length ≤ 0xC00) :
    (fill_buffer large0 what0 total num k).large.length = 0xC00 := by
  have hext : (fbExtend large0).length = 0xC00 := by
    simp [fbExtend]; omega
  have hp : (fbPrimary large0 what0 total num k).large.length = 0xC00 := by
    rw [fbPrimary, primaryLoop_large_length]; exact hext
  unfold fill_buffer
  split
  · next largeS zS heq =>
    have := scanLoop_large_length k (fbPrimary large0 what0 total num k).buf
      (1 <<< k) 0 0 (fbPrimary large0 what0 total num k).large
    rw [heq] at this
    simpa [hp] using this
  · next largeS zS heq =>
    have := scanLoop_large_length k (fbPrimary large0 what0 total num k).buf
      (1 <<< k) 0 0 (fbPrimary large0 what0 total num k).large
    rw [heq] at this
    have hS : largeS.length = 0xC00 := by simpa [hp] using this
    split
    · exact hS
    · rw [leafLoop_length]; exact hS

/-- C9 counterexample: a decoder-shaped small-table call — the buffer passed
as `large` has the 0x600 entries `small_array` is allocated with — comes back
from `fill_buffer` with 0xC00 entries, not 0x600: line 143 extends whichever
buffer it is given. -/
theorem table_capacity_cex :
    (fill_buffer (List.replicate 0x600 0) [1] 1 1 8).large.length = 0xC00 ∧
      (0xC00 : Nat) ≠ 0x600 :=
  ⟨fill_buffer_large_length (List.replicate 0x600 0) [1] 1 1 8
    (by rw [List.length_replicate]; omega), by decide⟩

/-- Destructuring a successful `Except` bind. -/
theorem bind_ok {e a b : Type} (m : Except e a) (f : a → Except e b) (y : b) :
    (m >>= f) = .ok y ↔ ∃ x, m = .ok x ∧ f x = .ok y := by
  cases m <;> simp [Bind.bind, Except.bind]

/-- The overflow scan raises its -8 flag exactly when some slot of the
scanned window holds a non-zero value exceeding `bufSize + 8`. -/
theorem scanLoop_flag_iff (k : Nat) (buf : List Nat) :
    ∀ r x z large, (scanLoop k buf x r z large).2.2 = true ↔
      ∃ i, x ≤ i ∧ i < x + r ∧ getL buf i ≠ 0 ∧ getL buf i - k > 8 := by
  intro r
  induction r with
  | zero =>
    intro x z large
    simp only [scanLoop, Bool.false_eq_true, false_iff]
    rintro ⟨i, h1, h2, -, -⟩
    omega
  | succ r ih =>
    intro x z large
    simp only [scanLoop]
    by_cases h0 : getL buf x ≠ 0
    · rw [if_pos h0]
      by_cases h8 : getL buf x - k > 8
      · rw [if_pos h8]
        simp only [true_iff]
        exact ⟨x, le_refl x, by omega, h0, h8⟩
      · rw [if_neg h8, ih]
        constructor
        · rintro ⟨i, hi1, hi2, hi3, hi4⟩
          exact ⟨i, by omega, by omega, hi3, hi4⟩
        · rintro ⟨i, hi1, hi2, hi3, hi4⟩
          have hne : i ≠ x := by rintro rfl; exact h8 hi4
          exact ⟨i, by omega, by omega, hi3, hi4⟩
    · rw [if_neg h0, ih]
      constructor
      · rintro ⟨i, hi1, hi2, hi3, hi4⟩
        exact ⟨i, by omega, by omega, hi3, hi4⟩
      · rintro ⟨i, hi1, hi2, hi3, hi4⟩
        have hne : i ≠ x := by rintro rfl; exact h0 hi3
        exact ⟨i, by omega, by omega, hi3, hi4⟩

/-- When no slot of the window trips the -8 test, the scan completes with
flag `false` and adds exactly the window's overflow demand to `z`. -/
theorem scanLoop_sum (k : Nat) (buf : List Nat) :
    ∀ r x z large,
      (¬ ∃ i, x ≤ i ∧ i < x + r ∧ getL buf i ≠ 0 ∧ getL buf i - k > 8) →
      (scanLoop k buf x r z large).2.1 = z + ovWin buf k x r ∧
      (scanLoop k buf x r z large).2.2 = false := by
  intro r
  induction r with
  | zero => intro x z large _; simp [scanLoop, ovWin]
  | succ r ih =>
    intro x z large hno
    simp only [scanLoop, ovWin]
    by_cases h0 : getL buf x ≠ 0
    · rw [if_pos h0, if_pos h0]
      have h8 : ¬ getL buf x - k > 8 := by
        intro h8
        exact hno ⟨x, le_refl x, by omega, h0, h8⟩
      rw [if_neg h8]
      have := ih (x + 1) (z + 1 <<< (getL buf x - k))
        (large.set x ((z <<< 7) + ((getL buf x - k) <<< 4)))
        (by rintro ⟨i, hi1, hi2, hi3, hi4⟩; exact hno ⟨i, by omega, by omega, hi3, hi4⟩)
      refine ⟨?_, this.2⟩
      rw [this.1]
      omega
    · rw [if_neg h0, if_neg h0]
      have := ih (x + 1) z large
        (by rintro ⟨i, hi1, hi2, hi3, hi4⟩; exact hno ⟨i, by omega, by omega, hi3, hi4⟩)
      refine ⟨?_, this.2⟩
      rw [this.1]
      omega

/-- The buffer-filling pass only marks the scratch with values at least
`bufSize` (the long-code branch condition). -/
theorem primaryLoop_buf_ge (what whenL samp : List Nat) (bufSize : Nat) :
    ∀ r x st, (∀ i, getL st.buf i ≠ 0 → bufSize ≤ getL st.buf i) →
      ∀ i, getL (primaryLoop what whenL samp bufSize x r st).buf i ≠ 0 →
        bufSize ≤ getL (primaryLoop what whenL samp bufSize x r st).buf i := by
  intro r
  induction r with
  | zero => intro x st h; exact h
  | succ r ih =>
    intro x st h
    simp only [primaryLoop]
    apply ih
    by_cases hb : getL what x < bufSize
    · simpa [hb] using h
    · intro i hi
      simp only [if_neg hb] at hi ⊢
      rcases getL_set_cases st.buf (getL samp x &&& ((1 <<< bufSize) - 1)) i (getL what x)
        with hc | hc
      · rw [hc] at hi ⊢; omega
      · rw [hc] at hi ⊢; exact h i hi

/-- C5: `fill_buffer` returns -8 exactly when some scratch-marked length
(all of which are at least `k`) exceeds `k + 8`; otherwise it returns -9
exactly when the reserved overflow slots (`1 <<< (L - k)` summed over the
marked primary slots) exceed 0x1FF; otherwise it returns 0; and it never
returns -12. -/
theorem fill_buffer_return_codes (large0 what0 : List Nat) (total num k : Nat) :
    (∀ i, getL (fbPrimary large0 what0 total num k).buf i ≠ 0 →
      k ≤ getL (fbPrimary large0 what0 total num k).buf i) ∧
    ((fill_buffer large0 what0 total num k).ret = -8 ↔
      hasBad (fbPrimary large0 what0 total num k).buf k (1 <<< k)) ∧
    (¬ hasBad (fbPrimary large0 what0 total num k).buf k (1 <<< k) →
      ((fill_buffer large0 what0 total num k).ret = -9 ↔
        ovWin (fbPrimary large0 what0 total num k).buf k 0 (1 <<< k) > 0x1FF)) ∧
    (¬ hasBad (fbPrimary large0 what0 total num k).buf k (1 <<< k) →
      ovWin (fbPrimary large0 what0 total num k).buf k 0 (1 <<< k) ≤ 0x1FF →
      (fill_buffer large0 what0 total num k).ret = 0) ∧
    (fill_buffer large0 what0 total num k).ret ≠ -12 := by
  have hbufge : ∀ i, getL (fbPrimary large0 what0 total num k).buf i ≠ 0 →
      k ≤ getL (fbPrimary large0 what0 total num k).buf i := by
    apply primaryLoop_buf_ge
    intro i hi
    rw [getL_replicate_zero] at hi
    omega
  rcases hsc : scanLoop k (fbPrimary large0 what0 total num k).buf 0 (1 <<< k) 0
    (fbPrimary large0 what0 total num k).large with ⟨largeS, zS, flag⟩
  have hret : (fill_buffer large0 what0 total num k).ret =
      (if flag then -8 else if zS > 0x1FF then -9 else 0) := by
    unfold fill_buffer
    rw [hsc]
    cases flag
    · simp only [Bool.false_eq_true, if_false]
      split <;> simp
    · simp
  have hflagiff : flag = true ↔
      ∃ i, 0 ≤ i ∧ i < 0 + 1 <<< k ∧ getL (fbPrimary large0 what0 total num k).buf i ≠ 0 ∧
        getL (fbPrimary large0 what0 total num k).buf i - k > 8 := by
    have := scanLoop_flag_iff k (fbPrimary large0 what0 total num k).buf (1 <<< k) 0 0
      (fbPrimary large0 what0 total num k).large
    rw [hsc] at this
    exact this
  have hbadiff : hasBad (fbPrimary large0 what0 total num k).buf k (1 <<< k) ↔
      ∃ i, 0 ≤ i ∧ i < 0 + 1 <<< k ∧ getL (fbPrimary large0 what0 total num k).buf i ≠ 0 ∧
        getL (fbPrimary large0 what0 total num k).buf i - k > 8 := by
    unfold hasBad
    constructor
    · rintro ⟨i, h1, h2, h3⟩; exact ⟨i, by omega, by omega, h2, h3⟩
    · rintro ⟨i, h1, h2, h3, h4⟩; exact ⟨i, by omega, h3, h4⟩
  refine ⟨hbufge, ?_, ?_, ?_, ?_⟩
  · cases flag
    · have hnotbad : ¬ hasBad (fbPrimary large0 what0 total num k).buf k (1 <<< k) := by
        rw [hbadiff, ← hflagiff]
        simp
      rw [hret]
      simp only [Bool.false_eq_true, if_false]
      constructor
      · intro h
        exfalso
        split at h <;> omega
      · intro h
        exact absurd h hnotbad
    · have hb : hasBad (fbPrimary large0 what0 total num k).buf k (1 <<< k) := by
        rw [hbadiff, ← hflagiff]
      rw [hret]
      simp [hb]
  · intro hnb
    have hfl : flag = false := by
      cases flag
      · rfl
      · exact absurd (hbadiff.mpr (hflagiff.mp rfl)) hnb
    subst hfl
    have hsum := scanLoop_sum k (fbPrimary large0 what0 total num k).buf (1 <<< k) 0 0
      (fbPrimary large0 what0 total num k).large
      (by rw [← hbadiff]; exact hnb)
    rw [hsc] at hsum
    simp only at hsum
    have hz : zS = ovWin (fbPrimary large0 what0 total num k).buf k 0 (1 <<< k) := by
      have := hsum.1
      omega
    rw [hret]
    simp only [Bool.false_eq_true, if_false]
    rw [hz]
    constructor
    · intro h
      by_contra hc
      rw [if_neg hc] at h
      omega
    · intro h
      rw [if_pos h]
  · intro hnb hle
    have hfl : flag = false := by
      cases flag
      · rfl
      · exact absurd (hbadiff.mpr (hflagiff.mp rfl)) hnb
    subst hfl
    have hsum := scanLoop_sum k (fbPrimary large0 what0 total num k).buf (1 <<< k) 0 0
      (fbPrimary large0 what0 total num k).large
      (by rw [← hbadiff]; exact hnb)
    rw [hsc] at hsum
    simp only at hsum
    have hz : zS = ovWin (fbPrimary large0 what0 total num k).buf k 0 (1 <<< k) := by
      have := hsum.1
      omega
    rw [hret]
    simp only [Bool.false_eq_true, if_false]
    rw [if_neg (by omega)]
  · rw [hret]
    cases flag
    · split <;> omega
    · simp

/-- A successful `dHelper` call only touches the bit-reader fields. -/
theorem dHelper_ok_frame (F : List Nat) (hdr : EdlHeader) (s t : DSt)
    (h : dHelper F hdr s = .ok t) :
    t.whatT = s.whatT ∧ t.stack = s.stack ∧ t.y = s.y ∧ t.num = s.num ∧
    t.largeT = s.largeT ∧ t.smallT = s.smallT ∧ t.result = s.result ∧
    t.arrayIndex = s.arrayIndex ∧ t.x = s.x ∧ t.z = s.z ∧ t.back = s.back := by
  unfold dHelper at h
  rcases hh : helper F 0 hdr ⟨s.acc, s.pos, s.rpos⟩ s.count with e | p
  · rw [hh] at h; cases h
  · rw [hh] at h
    simp only [Except.ok.injEq] at h
    subst h
    simp

/-- The sorting pass's inner loop keeps every cell a nibble when it writes a
nibble. -/
theorem sortInner_getL_le (y : Nat) (hy : y ≤ 15) :
    ∀ z x what, (∀ p, getL what p ≤ 15) → ∀ p, getL (sortInner y z x what).1 p ≤ 15 := by
  intro z
  induction z with
  | zero => intro x what h p; exact h p
  | succ z ih =>
    intro x what h p
    simp only [sortInner]
    apply ih
    intro q
    rcases getL_set_cases what x q y with hc | hc
    · rw [hc]; exact hy
    · rw [hc]; exact h q

/-- The sorting pass keeps every cell a nibble. -/
theorem sortOuter_le (number : List Nat) :
    ∀ r y x what, y + r ≤ 16 → (∀ p, getL what p ≤ 15) →
      ∀ p, getL (sortOuter number y r x what) p ≤ 15 := by
  intro r
  induction r with
  | zero => intro y x what _ h p; exact h p
  | succ r ih =>
    intro y x what hyr h p
    simp only [sortOuter]
    exact ih (y + 1) _ _ (by omega) (sortInner_getL_le y (by omega) (getL number y) x what h) p

/-- If the incoming lengths are nibbles, so are the sorted ones. -/
theorem fbSorted_le (what0 : List Nat) (total num : Nat) (h : ∀ p, getL what0 p ≤ 15) :
    ∀ p, getL (fbSorted what0 total num) p ≤ 15 :=
  sortOuter_le _ 15 1 0 what0 (by omega) h

/-- With nibble lengths, every scratch-`buf` value stays a nibble. -/
theorem primaryLoop_buf_le (what whenL samp : List Nat) (bufSize : Nat)
    (hw : ∀ p, getL what p ≤ 15) :
    ∀ r x st, (∀ i, getL st.buf i ≤ 15) →
      ∀ i, getL (primaryLoop what whenL samp bufSize x r st).buf i ≤ 15 := by
  intro r
  induction r with
  | zero => intro x st h; exact h
  | succ r ih =>
    intro x st h
    simp only [primaryLoop]
    apply ih
    by_cases hb : getL what x < bufSize
    · simpa [hb] using h
    · intro i
      simp only [if_neg hb]
      rcases getL_set_cases st.buf (getL samp x &&& ((1 <<< bufSize) - 1)) i (getL what x)
        with hc | hc
      · rw [hc]; exact hw x
      · rw [hc]; exact h i

/-- C10: the decoder's nibble loops only ever store 4-bit values (the shared
loop body preserves "every `what` entry and the carried `stack` are at most
15"), and `fill_buffer` called on such a lengths vector with the decoder's
granularities `k = 8` or `k = 10` never returns -8: every scratch-marked
length is at most 15 ≤ k + 8. -/
theorem decoder_fill_buffer_no_minus8 :
    (∀ (F : List Nat) (hdr : EdlHeader) (s s' : DSt),
      (∀ i, getL s.whatT i ≤ 15) → s.stack ≤ 15 →
      nibbleBody F hdr s = .ok s' →
      (∀ i, getL s'.whatT i ≤ 15) ∧ s'.stack ≤ 15) ∧
    (∀ (large0 what0 : List Nat) (total num k : Nat),
      (∀ i, getL what0 i ≤ 15) → (k = 8 ∨ k = 10) →
      (fill_buffer large0 what0 total num k).ret ≠ -8) := by
  constructor
  · intro F hdr s s' hw hs heq
    unfold nibbleBody at heq
    rw [bind_ok] at heq
    obtain ⟨s1, h1, heq⟩ := heq
    obtain ⟨hw1, hs1, -⟩ := dHelper_ok_frame F hdr s s1 h1
    dsimp only at heq
    by_cases hb : s1.acc &&& 1 ≠ 0
    · rw [if_pos hb, bind_ok] at heq
      obtain ⟨s3, h3, heq⟩ := heq
      obtain ⟨hw3, -⟩ := dHelper_ok_frame F hdr _ s3 h3
      simp only at hw3
      rw [pure_bind, bind_ok] at heq
      obtain ⟨w, hwset, heq⟩ := heq
      simp only [pure, Except.pure, Except.ok.injEq] at heq
      subst heq
      dsimp only at hwset ⊢
      have hstk : s3.acc &&& 15 ≤ 15 := Nat.and_le_right
      refine ⟨?_, hstk⟩
      intro i
      unfold pySet at hwset
      have hwhat : ∀ q, getL s3.whatT q ≤ 15 := by
        intro q
        rw [hw3, hw1]
        exact hw q
      split at hwset
      · simp only [Except.ok.injEq] at hwset
        subst hwset
        rcases getL_set_cases s3.whatT _ i (s3.acc &&& 15) with hc | hc
        · rw [hc]; exact hstk
        · rw [hc]; exact hwhat i
      · split at hwset
        · simp only [Except.ok.injEq] at hwset
          subst hwset
          rcases getL_set_cases s3.whatT _ i (s3.acc &&& 15) with hc | hc
          · rw [hc]; exact hstk
          · rw [hc]; exact hwhat i
        · cases hwset
    · rw [if_neg hb] at heq
      rw [pure_bind, bind_ok] at heq
      obtain ⟨w, hwset, heq⟩ := heq
      simp only [pure, Except.pure, Except.ok.injEq] at heq
      subst heq
      dsimp only at hwset ⊢
      have hstk : s1.stack ≤ 15 := by rw [hs1]; exact hs
      refine ⟨?_, hstk⟩
      intro i
      unfold pySet at hwset
      have hwhat : ∀ q, getL s1.whatT q ≤ 15 := by
        intro q
        rw [hw1]
        exact hw q
      split at hwset
      · simp only [Except.ok.injEq] at hwset
        subst hwset
        rcases getL_set_cases s1.whatT _ i s1.stack with hc | hc
        · rw [hc]; exact hstk
        · rw [hc]; exact hwhat i
      · split at hwset
        · simp only [Except.ok.injEq] at hwset
          subst hwset
          rcases getL_set_cases s1.whatT _ i s1.stack with hc | hc
          · rw [hc]; exact hstk
          · rw [hc]; exact hwhat i
        · cases hwset
  · intro large0 what0 total num k hw hk
    have hk8 : 8 ≤ k := by rcases hk with rfl | rfl <;> omega
    have hble : ∀ i, getL (fbPrimary large0 what0 total num k).buf i ≤ 15 := by
      apply primaryLoop_buf_le _ _ _ _ (fbSorted_le what0 total num hw)
      intro i
      rw [getL_replicate_zero]
      omega
    rcases hsc : scanLoop k (fbPrimary large0 what0 total num k).buf 0 (1 <<< k) 0
      (fbPrimary large0 what0 total num k).large with ⟨largeS, zS, flag⟩
    cases flag
    · unfold fill_buffer
      rw [hsc]
      simp only [Bool.false_eq_true, if_false]
      split <;> simp
    · exfalso
      have hex := (scanLoop_flag_iff k (fbPrimary large0 what0 total num k).buf (1 <<< k) 0 0
        (fbPrimary large0 what0 total num k).large).mp (by rw [hsc])
      obtain ⟨i, -, -, h3, h4⟩ := hex
      have := hble i
      omega

/-- C10 witness: both halves at concrete inputs — a nibble-loop step on a
4-cell `what`, and the counterexample-shaped `fill_buffer` call with
`k = 8`. -/
theorem decoder_fill_buffer_no_minus8_witness :
    ((∀ i, getL (⟨0, 99, 0, 0, 0, 0, 0, 0, 0, 0, [], [], (List.replicate 4 0).set 0 0, [], 0⟩ : DSt).whatT i ≤ 15) ∧
      (⟨0, 99, 0, 0, 0, 0, 0, 0, 0, 0, [], [], (List.replicate 4 0).set 0 0, [], 0⟩ : DSt).stack ≤ 15) ∧
    (fill_buffer (List.replicate 0x600 0) [1] 1 1 8).ret ≠ -8 := by
  constructor
  · exact decoder_fill_buffer_no_minus8.1 [] ⟨1, .Little, 16, 100⟩
      ⟨0, 100, 0, 0, 0, 0, 0, 0, 0, 0, [], [], List.replicate 4 0, [], 0⟩
      ⟨0, 99, 0, 0, 0, 0, 0, 0, 0, 0, [], [], (List.replicate 4 0).set 0 0, [], 0⟩
      (by intro i; rcases i with _ | _ | _ | _ | i <;> simp [getL, List.getD])
      (by decide) (by decide)
  · exact decoder_fill_buffer_no_minus8.2 (List.replicate 0x600 0) [1] 1 1 8
      (by intro i; rcases i with _ | i <;> simp [getL, List.getD])
      (Or.inl rfl)

set_option maxRecDepth 10000 in
/-- C5 witness: the return-code characterisation applied at a concrete
one-symbol table (length 1, `k = 8`), whose scan trips neither error. -/
theorem fill_buffer_return_codes_witness : (fill_buffer [] [1] 1 1 8).ret = 0 :=
  (fill_buffer_return_codes [] [1] 1 1 8).2.2.2.1 (by decide) (by decide)

set_option maxRecDepth 10000 in
/-- C8 counterexample: on `Feof` the source decoder and the claim's decoder
(refill before the EOF bit) return different outputs — the claim-side refill
advances `pos` past `compressed_size`, ending the stream two frames early. -/
theorem eof_refill_cex :
    EdlHeader.parse Feof = some Heof ∧
    decompress_edl1 Feof Heof 12 64 = .ok (List.replicate 100 0) ∧
    decompress_edl1_claim Feof Heof 12 64 = .ok [0, 0] ∧
    decompress_edl1 Feof Heof 12 64 ≠ decompress_edl1_claim Feof Heof 12 64 := by
  refine ⟨by decide, by decide, by decide, by decide⟩

/-- C8 (amended): at the end of every frame the decoder consumes exactly one
EOF-marker bit straight from the accumulator, with no refill — the EOF step
leaves `pos`, the reader position and the output untouched and only shifts
the accumulator and decrements the bit count — and when that bit is 1 the
decoder returns the complete (full, unsliced) output buffer, else it
continues the frame loop. -/
theorem eof_bit_no_refill (F : List Nat) (hdr : EdlHeader) :
    (∀ s1 : DSt, (edl1EofStep s1).1.pos = s1.pos ∧ (edl1EofStep s1).1.rpos = s1.rpos ∧
      (edl1EofStep s1).1.result = s1.result ∧ (edl1EofStep s1).1.acc = s1.acc >>> 1 ∧
      (edl1EofStep s1).1.count = s1.count - 1 ∧
      ((edl1EofStep s1).2 = true ↔ s1.acc &&& 1 = 1)) ∧
    (∀ (fuel : Nat) (s0 s1 : DSt), s0.pos ≤ (hdr.compressed_size : Int) →
      frameBody F hdr (fuel + 1) s0 = .ok (.cont s1) →
      frameLoop F hdr (fuel + 1) s0 =
        if s1.acc &&& 1 = 1 then .ok s1.result
        else frameLoop F hdr fuel (edl1EofStep s1).1) := by
  have hflag : ∀ s1 : DSt, ((edl1EofStep s1).2 = true ↔ s1.acc &&& 1 = 1) := by
    intro s1
    simp only [edl1EofStep, bne_iff_ne, ne_eq]
    rw [Nat.and_one_is_mod]
    omega
  constructor
  · intro s1
    exact ⟨rfl, rfl, rfl, rfl, rfl, hflag s1⟩
  · intro fuel s0 s1 hpos hbody
    rw [frameLoop, if_pos hpos, hbody]
    dsimp only
    by_cases hbit : s1.acc &&& 1 = 1
    · rw [if_pos hbit]
      have h2 : (edl1EofStep s1).2 = true := (hflag s1).mpr hbit
      rw [h2]
      simp only [if_true]
      rfl
    · rw [if_neg hbit]
      have h2 : (edl1EofStep s1).2 = false := by
        rcases Bool.eq_false_or_eq_true (edl1EofStep s1).2 with h | h
        · exact absurd ((hflag s1).mp h) hbit
        · exact h
      rw [h2]
      simp only [Bool.false_eq_true, if_false]

/-- C8 witness: the amended frame-epilogue equation at a concrete one-frame
mode-0 state. -/
theorem eof_bit_no_refill_witness :
    frameLoop [] ⟨1, .Little, 0, 0⟩ (0 + 1) ⟨0, 100, 0, 0, 0, 0, 0, 0, 0, 0, [], [], [], [], 0⟩ =
      if (⟨0, 84, 0, 0, 0, 0, 0, 0, 0, 0, [], [], [], [], 0⟩ : DSt).acc &&& 1 = 1
      then .ok (⟨0, 84, 0, 0, 0, 0, 0, 0, 0, 0, [], [], [], [], 0⟩ : DSt).result
      else frameLoop [] ⟨1, .Little, 0, 0⟩ 0
        (edl1EofStep ⟨0, 84, 0, 0, 0, 0, 0, 0, 0, 0, [], [], [], [], 0⟩).1 :=
  (eof_bit_no_refill [] ⟨1, .Little, 0, 0⟩).2 0
    ⟨0, 100, 0, 0, 0, 0, 0, 0, 0, 0, [], [], [], [], 0⟩
    ⟨0, 84, 0, 0, 0, 0, 0, 0, 0, 0, [], [], [], [], 0⟩
    (by decide) (by decide)

/-- The occurrence pass's inner loop preserves the length of `number`. -/
theorem occInner_number_length (what : List Nat) (y : Nat) :
    ∀ r x st, (occInner what y x r st).number.length = st.number.length := by
  intro r
  induction r with
  | zero => intro x st; rfl
  | succ r ih =>
    intro x st
    simp only [occInner]
    rw [ih]
    by_cases hm : getL what x = y <;> simp [hm]

/-- The occurrence pass's inner loop adds the window's occurrence count to
`number[y]` and touches no other count. -/
theorem occInner_number (what : List Nat) (y : Nat) :
    ∀ r x st, y < st.number.length → ∀ v,
      getL (occInner what y x r st).number v =
        if v = y then getL st.number v + occCnt what y x r else getL st.number v := by
  intro r
  induction r with
  | zero =>
    intro x st _ v
    simp only [occInner, occCnt]
    split <;> rfl
  | succ r ih =>
    intro x st hy v
    simp only [occInner, occCnt]
    by_cases hm : getL what x = y
    · simp only [if_pos hm]
      have hlen : y < (st.number.set y (getL st.number y + 1)).length := by
        rw [List.length_set]; exact hy
      rw [ih (x + 1) _ hlen v]
      by_cases hv : v = y
      · subst hv
        simp only [if_pos rfl, ite_true, getL_set_self _ _ _ hy]
        omega
      · simp only [if_neg hv, getL_set_ne _ _ (fun h => hv h.symm)]
    · simp only [if_neg hm]
      rw [ih (x + 1) _ hy v]
      by_cases hv : v = y
      · simp only [if_pos hv]; omega
      · simp only [if_neg hv]

/-- The occurrence pass fills `number[v]` with the count of `v` among the
first `total` entries, for every length in the scanned band. -/
theorem occOuter_number (what : List Nat) (total : Nat) :
    ∀ r y st, y + r ≤ st.number.length → ∀ v,
      getL (occOuter what total y r st).number v =
        if y ≤ v ∧ v < y + r then getL st.number v + occCnt what v 0 total
        else getL st.number v := by
  intro r
  induction r with
  | zero =>
    intro y st _ v
    simp only [occOuter]
    rw [if_neg (by omega)]
  | succ r ih =>
    intro y st hlen v
    simp only [occOuter]
    have hy : y < st.number.length := by omega
    have hlen1 : (y + 1) + r ≤ (occInner what y 0 total st).number.length := by
      rw [occInner_number_length]; omega
    rw [ih (y + 1) _ hlen1 v, occInner_number what y total 0 st hy v]
    by_cases hv : v = y
    · subst hv
      rw [if_neg (by omega), if_pos rfl, if_pos (by omega)]
    · rw [if_neg hv]
      by_cases hr : y + 1 ≤ v ∧ v < y + 1 + r
      · rw [if_pos hr, if_pos (by omega)]
      · rw [if_neg hr, if_neg (by omega)]

/-- Appending one more position to an occurrence window. -/
theorem occCnt_snoc (what : List Nat) (y : Nat) :
    ∀ r x, occCnt what y x (r + 1) =
      occCnt what y x r + (if getL what (x + r) = y then 1 else 0) := by
  intro r
  induction r with
  | zero => intro x; simp [occCnt]
  | succ r ih =>
    intro x
    rw [occCnt, ih (x + 1), occCnt]
    have : x + 1 + r = x + (r + 1) := by omega
    rw [this]
    omega

/-- Appending one more position to the banded count sum. -/
theorem sumCnt_snoc (what : List Nat) (t : Nat) :
    ∀ v, sumCnt what (t + 1) v =
      sumCnt what t v + (if 1 ≤ getL what t ∧ getL what t ≤ v then 1 else 0) := by
  intro v
  induction v with
  | zero =>
    simp only [sumCnt]
    rw [if_neg (by omega)]
  | succ v ih =>
    rw [sumCnt, sumCnt, ih, occCnt_snoc]
    simp only [Nat.zero_add]
    split_ifs <;> omega

/-- The band sum over an empty prefix is 0. -/
theorem sumCnt_zero (what : List Nat) : ∀ v, sumCnt what 0 v = 0 := by
  intro v
  induction v with
  | zero => rfl
  | succ v ih => rw [sumCnt, ih]; rfl

/-- With nibble values, the band sum up to 15 counts exactly the non-zero
positions. -/
theorem sumCnt_eq_filter (what : List Nat) (h : ∀ i, getL what i ≤ 15) :
    ∀ t, sumCnt what t 15 =
      ((List.range t).filter (fun i => getL what i ≠ 0)).length := by
  intro t
  induction t with
  | zero => simp [sumCnt_zero]
  | succ t ih =>
    rw [sumCnt_snoc, ih, List.range_succ, List.filter_append, List.length_append]
    have h15 := h t
    by_cases h0 : getL what t = 0
    · rw [if_neg (by omega)]
      simp [h0]
    · rw [if_pos (by omega)]
      simp [h0]

/-- Extending a `winSum` window on the right. -/
theorem winSum_snoc (number : List Nat) :
    ∀ r y, winSum number y (r + 1) = winSum number y r + getL number (y + r) := by
  intro r
  induction r with
  | zero => intro y; simp [winSum]
  | succ r ih =>
    intro y
    rw [winSum, ih (y + 1), winSum]
    have : y + 1 + r = y + (r + 1) := by omega
    rw [this]
    omega

/-- Final write position of the sorting pass's inner loop. -/
theorem sortInner_snd (y : Nat) :
    ∀ z x what, (sortInner y z x what).2 = x + z := by
  intro z
  induction z with
  | zero => intro x what; simp [sortInner]
  | succ z ih =>
    intro x what
    rw [sortInner, ih]
    omega

/-- The inner sorting loop preserves the list length. -/
theorem sortInner_length (y : Nat) :
    ∀ z x what, (sortInner y z x what).1.length = what.length := by
  intro z
  induction z with
  | zero => intro x what; rfl
  | succ z ih =>
    intro x what
    rw [sortInner, ih, List.length_set]

/-- Positions left of the write window are untouched by the inner sort. -/
theorem sortInner_getL_lt (y : Nat) :
    ∀ z x what p, p < x → getL (sortInner y z x what).1 p = getL what p := by
  intro z
  induction z with
  | zero => intro x what p _; rfl
  | succ z ih =>
    intro x what p hp
    rw [sortInner, ih _ _ _ (by omega), getL_set_ne _ _ (by omega)]

/-- Positions inside the write window read the written length. -/
theorem sortInner_getL_in (y : Nat) :
    ∀ z x what p, x + z ≤ what.length → x ≤ p → p < x + z →
      getL (sortInner y z x what).1 p = y := by
  intro z
  induction z with
  | zero => intro x what p _ h1 h2; omega
  | succ z ih =>
    intro x what p hlen h1 h2
    rw [sortInner]
    by_cases hp : p = x
    · subst hp
      rw [sortInner_getL_lt y z (p + 1) (what.set p y) p (by omega),
        getL_set_self what p y (by omega)]
    · exact ih (x + 1) _ p (by rw [List.length_set]; omega) (by omega) (by omega)

/-- Positions left of the whole sorted band are untouched by the sorting
pass. -/
theorem sortOuter_below (number : List Nat) :
    ∀ r y x what p, p < x → getL (sortOuter number y r x what) p = getL what p := by
  intro r
  induction r with
  | zero => intro y x what p _; rfl
  | succ r ih =>
    intro y x what p hp
    simp only [sortOuter]
    rw [ih _ _ _ _ (by rw [sortInner_snd]; omega), sortInner_getL_lt _ _ _ _ _ hp]

/-- The sorting pass preserves the list length. -/
theorem sortOuter_length (number : List Nat) :
    ∀ r y x what, (sortOuter number y r x what).length = what.length := by
  intro r
  induction r with
  | zero => intro y x what; rfl
  | succ r ih =>
    intro y x what
    simp only [sortOuter]
    rw [ih, sortInner_length]

/-- A successful checked list write keeps the length. -/
theorem pySet_length (l : List Nat) (i : Int) (v : Nat) (w : List Nat)
    (h : pySet l i v = .ok w) : w.length = l.length := by
  unfold pySet at h
  split at h
  · simp only [Except.ok.injEq] at h
    subst h
    simp
  · split at h
    · simp only [Except.ok.injEq] at h
      subst h
      simp
    · cases h

/-- `__helper` reads none of the decoder's lists, so calling it with a
different scratch changes only the scratch field of the outcome. -/
theorem dHelper_set_whatT (F : List Nat) (hdr : EdlHeader) (s : DSt) (w : List Nat) :
    dHelper F hdr { s with whatT := w } =
      match dHelper F hdr s with
      | .error e => .error e
      | .ok t => .ok { t with whatT := w } := by
  unfold dHelper
  dsimp only
  rcases helper F 0 hdr ⟨s.acc, s.pos, s.rpos⟩ s.count with e | ⟨b, c⟩ <;> rfl

/-- The shared nibble-loop body keeps the scratch's length: its only scratch
write is the checked `what[y] = stack`. -/
theorem nibbleBody_whatT_length (F : List Nat) (hdr : EdlHeader) (s s' : DSt)
    (h : nibbleBody F hdr s = .ok s') : s'.whatT.length = s.whatT.length := by
  unfold nibbleBody at h
  rw [bind_ok] at h
  obtain ⟨s1, h1, h⟩ := h
  have hw1 := (dHelper_ok_frame F hdr s s1 h1).1
  dsimp only at h
  by_cases hb : s1.acc &&& 1 ≠ 0
  · rw [if_pos hb, bind_ok] at h
    obtain ⟨s3, h3, h⟩ := h
    have hw3 := (dHelper_ok_frame F hdr _ s3 h3).1
    simp only at hw3
    rw [pure_bind, bind_ok] at h
    obtain ⟨w, hwset, h⟩ := h
    simp only [pure, Except.pure, Except.ok.injEq] at h
    subst h
    dsimp only at hwset ⊢
    rw [pySet_length _ _ _ _ hwset, hw3, hw1]
  · rw [if_neg hb] at h
    rw [pure_bind, bind_ok] at h
    obtain ⟨w, hwset, h⟩ := h
    simp only [pure, Except.pure, Except.ok.injEq] at h
    subst h
    dsimp only at hwset ⊢
    rw [pySet_length _ _ _ _ hwset, hw1]

/-- The small table's nibble loop keeps the scratch's length. -/
theorem smallFillLoop_whatT_length (F : List Nat) (hdr : EdlHeader) :
    ∀ r i s s', smallFillLoop F hdr i r s = .ok s' →
      s'.whatT.length = s.whatT.length := by
  intro r
  induction r with
  | zero =>
    intro i s s' h
    simp only [smallFillLoop, Except.ok.injEq] at h
    subst h
    rfl
  | succ r ih =>
    intro i s s' h
    simp only [smallFillLoop] at h
    rw [bind_ok] at h
    obtain ⟨s1, h1, h⟩ := h
    have e1 := ih _ _ _ h
    have e2 := nibbleBody_whatT_length F hdr _ _ h1
    simp only at e2
    exact e1.trans e2

/-- The large table's nibble loop keeps the scratch's length. -/
theorem largeFillLoop_whatT_length (F : List Nat) (hdr : EdlHeader) :
    ∀ f s s', largeFillLoop F hdr f s = .ok s' →
      s'.whatT.length = s.whatT.length := by
  intro f
  induction f with
  | zero =>
    intro s s' h
    simp only [largeFillLoop] at h
    split at h
    · cases h
    · simp only [Except.ok.injEq] at h
      subst h
      rfl
  | succ f ih =>
    intro s s' h
    simp only [largeFillLoop] at h
    split at h
    · rw [bind_ok] at h
      obtain ⟨s1, h1, h⟩ := h
      have e1 := ih _ _ h
      have e2 := nibbleBody_whatT_length F hdr _ _ h1
      simp only at e1
      exact e1.trans e2
    · simp only [Except.ok.injEq] at h
      subst h
      rfl

/-- Whatever exit `fill_buffer` takes, the scratch it hands back is the
sorted lengths list. -/
theorem fill_buffer_what (large0 what0 : List Nat) (total num k : Nat) :
    (fill_buffer large0 what0 total num k).what = fbSorted what0 total num := by
  unfold fill_buffer
  split
  · rfl
  · split <;> rfl

/-- The large-table build zeroes the scratch in place (and `fill_buffer`
sorts it), so its length is untouched. -/
theorem buildLarge_whatT_length (F : List Nat) (hdr : EdlHeader) (s s' : DSt)
    (h : buildLarge F hdr s = .ok s') : s'.whatT.length = s.whatT.length := by
  unfold buildLarge at h
  rw [bind_ok] at h
  obtain ⟨s1, h1, h⟩ := h
  have hw1 := (dHelper_ok_frame F hdr s s1 h1).1
  dsimp only at h
  by_cases hxv : s1.acc &&& 0x1FF ≠ 0
  · rw [if_pos hxv, bind_ok] at h
    obtain ⟨s4, h4, h⟩ := h
    simp only [pure, Except.pure, Except.ok.injEq] at h
    subst h
    dsimp only
    rw [fill_buffer_what]
    unfold fbSorted
    rw [sortOuter_length]
    have hlen := largeFillLoop_whatT_length F hdr _ _ _ h4
    simp only [List.length_replicate] at hlen
    rw [hlen, hw1]
  · rw [if_neg hxv] at h
    simp only [pure, Except.pure, Except.ok.injEq] at h
    subst h
    dsimp only
    rw [hw1]

/-- The small-table build either skips (count 0, scratch untouched) or
replaces the scratch by a fresh 0x400-entry allocation, so its outcome is
the same for any incoming scratch. -/
theorem buildSmall_scratch (F : List Nat) (hdr : EdlHeader) (s s' : DSt)
    (h : buildSmall F hdr s = .ok s') :
    s'.whatT = s.whatT ∨
    (s'.whatT.length = 0x400 ∧
      ∀ w, buildSmall F hdr { s with whatT := w } = .ok s') := by
  unfold buildSmall at h
  rw [bind_ok] at h
  obtain ⟨s1, h1, h⟩ := h
  dsimp only at h
  by_cases hxv : s1.acc &&& 0x1FF ≠ 0
  · right
    rw [if_pos hxv, bind_ok] at h
    obtain ⟨s4, h4, h⟩ := h
    simp only [pure, Except.pure, Except.ok.injEq] at h
    subst h
    constructor
    · dsimp only
      rw [fill_buffer_what]
      unfold fbSorted
      rw [sortOuter_length]
      have hlen := smallFillLoop_whatT_length F hdr _ _ _ _ h4
      simp only [List.length_replicate] at hlen
      exact hlen
    · intro w
      unfold buildSmall
      rw [dHelper_set_whatT, h1]
      dsimp only
      rw [bind_ok]
      refine ⟨{ s1 with whatT := w }, rfl, ?_⟩
      dsimp only
      rw [if_pos hxv, bind_ok]
      exact ⟨s4, h4, rfl⟩
  · left
    rw [if_neg hxv] at h
    simp only [pure, Except.pure, Except.ok.injEq] at h
    subst h
    exact (dHelper_ok_frame F hdr s s1 h1).1

/-- C9 (amended): the decoder allocates `large` and `small_array` at 0x600
entries and the `what` scratch at 0x400; `fill_buffer` itself extends
whichever buffer it receives (when not larger already) to 0xC00 entries and
keeps it there — so both lookup tables grow to 0xC00 at their first build
instead of keeping the allocated capacities.  The lengths scratch, by
contrast, stays its 0x400 entries: `fill_buffer` hands back a sorted scratch
of the incoming length, the large-table build only zeroes the scratch in
place, and the small-table build of a mode-1 frame, when it runs, replaces
the scratch by a fresh 0x400-entry allocation — its outcome is independent
of whatever scratch was there before. -/
theorem table_capacity_growth :
    (∀ hdr r, (edl1Init hdr r).largeT.length = 0x600 ∧
      (edl1Init hdr r).smallT.length = 0x600 ∧ (edl1Init hdr r).whatT.length = 0x400) ∧
    (∀ large0 what0 total num k, large0.length ≤ 0xC00 →
      (fill_buffer large0 what0 total num k).large.length = 0xC00) ∧
    (∀ large0 what0 total num k,
      (fill_buffer large0 what0 total num k).what.length = what0.length) ∧
    (∀ F hdr s s', buildLarge F hdr s = .ok s' →
      s'.whatT.length = s.whatT.length) ∧
    (∀ F hdr s s', buildSmall F hdr s = .ok s' →
      s'.whatT = s.whatT ∨
      (s'.whatT.length = 0x400 ∧
        ∀ w, buildSmall F hdr { s with whatT := w } = .ok s')) := by
  refine ⟨?_, ?_, ?_, ?_, ?_⟩
  · intro hdr r
    refine ⟨?_, ?_, ?_⟩ <;> simp only [edl1Init, List.length_replicate]
  · intro large0 what0 total num k hle
    exact fill_buffer_large_length large0 what0 total num k hle
  · intro large0 what0 total num k
    rw [fill_buffer_what]
    unfold fbSorted
    rw [sortOuter_length]
  · exact buildLarge_whatT_length
  · exact buildSmall_scratch

/-- C9 witness: the growth statement at the concrete small-table call of the
counterexample, plus the scratch clauses at concrete runs — `fill_buffer`
hands a 1-entry scratch back with 1 entry, and a zero-count
`buildLarge`/`buildSmall` on an empty stream leaves the scratch alone. -/
theorem table_capacity_growth_witness :
    (fill_buffer (List.replicate 0x600 0) [0x3] 1 1 8).large.length = 0xC00 ∧
    (fill_buffer (List.replicate 0x600 0) [0x3] 1 1 8).what.length = 1 ∧
    ((⟨0, -5, 12, 0, 0, 0, 0, 0, 0, 0, [], [], [], [], 0⟩ : DSt).whatT.length =
      (⟨0, 0, 12, 0, 0, 0, 0, 0, 0, 0, [], [], [], [], 0⟩ : DSt).whatT.length) ∧
    ((⟨0, -5, 12, 0, 0, 0, 0, 0, 0, 0, [], [], [], [], 0⟩ : DSt).whatT =
        (⟨0, 0, 12, 0, 0, 0, 0, 0, 0, 0, [], [], [], [], 0⟩ : DSt).whatT ∨
      ((⟨0, -5, 12, 0, 0, 0, 0, 0, 0, 0, [], [], [], [], 0⟩ : DSt).whatT.length = 0x400 ∧
        ∀ w, buildSmall [] Heof
            { (⟨0, 0, 12, 0, 0, 0, 0, 0, 0, 0, [], [], [], [], 0⟩ : DSt) with whatT := w } =
          .ok ⟨0, -5, 12, 0, 0, 0, 0, 0, 0, 0, [], [], [], [], 0⟩)) :=
  ⟨table_capacity_growth.2.1 (List.replicate 0x600 0) [0x3] 1 1 8
      (by rw [List.length_replicate]; omega),
   table_capacity_growth.2.2.1 (List.replicate 0x600 0) [0x3] 1 1 8,
   table_capacity_growth.2.2.2.1 [] Heof
     ⟨0, 0, 12, 0, 0, 0, 0, 0, 0, 0, [], [], [], [], 0⟩
     ⟨0, -5, 12, 0, 0, 0, 0, 0, 0, 0, [], [], [], [], 0⟩ (by decide),
   table_capacity_growth.2.2.2.2 [] Heof
     ⟨0, 0, 12, 0, 0, 0, 0, 0, 0, 0, [], [], [], [], 0⟩
     ⟨0, -5, 12, 0, 0, 0, 0, 0, 0, 0, [], [], [], [], 0⟩ (by decide)⟩

/-- The sorting pass writes, over the band `[x, x + winSum number y r)`,
values from `[y, y + r)` in nondecreasing order. -/
theorem sortOuter_main (number : List Nat) :
    ∀ r y x what, x + winSum number y r ≤ what.length →
      (∀ p, x ≤ p → p < x + winSum number y r →
        y ≤ getL (sortOuter number y r x what) p ∧
        getL (sortOuter number y r x what) p < y + r) ∧
      (∀ p q, x ≤ p → p ≤ q → q < x + winSum number y r →
        getL (sortOuter number y r x what) p ≤ getL (sortOuter number y r x what) q) := by
  intro r
  induction r with
  | zero =>
    intro y x what _
    constructor
    · intro p h1 h2
      simp only [winSum] at h2
      omega
    · intro p q h1 h2 h3
      simp only [winSum] at h3
      omega
  | succ r ih =>
    intro y x what hlen
    have hws : winSum number y (r + 1) = getL number y + winSum number (y + 1) r := rfl
    rw [hws] at hlen
    have hsnd : (sortInner y (getL number y) x what).2 = x + getL number y :=
      sortInner_snd y (getL number y) x what
    have hlen1 : (sortInner y (getL number y) x what).1.length = what.length :=
      sortInner_length y (getL number y) x what
    have hih := ih (y + 1) (x + getL number y) (sortInner y (getL number y) x what).1
      (by rw [hlen1]; omega)
    have hblock : ∀ p, x ≤ p → p < x + getL number y →
        getL (sortOuter number (y + 1) r (x + getL number y)
          (sortInner y (getL number y) x what).1) p = y := by
      intro p h1 h2
      rw [sortOuter_below _ _ _ _ _ _ (by omega)]
      exact sortInner_getL_in y (getL number y) x what p (by omega) h1 h2
    have hgoal : sortOuter number y (r + 1) x what =
        sortOuter number (y + 1) r (x + getL number y)
          (sortInner y (getL number y) x what).1 := by
      simp only [sortOuter]
      rw [hsnd]
    rw [hgoal, hws]
    constructor
    · intro p h1 h2
      by_cases hp : p < x + getL number y
      · rw [hblock p h1 hp]
        omega
      · have := hih.1 p (by omega) (by omega)
        omega
    · intro p q h1 h2 h3
      by_cases hq : q < x + getL number y
      · rw [hblock p h1 (by omega), hblock q (by omega) hq]
      · by_cases hp : p < x + getL number y
        · rw [hblock p h1 hp]
          have := hih.1 q (by omega) (by omega)
          omega
        · exact hih.2 p q (by omega) h2 (by omega)

/-- The bitsample loop assigns each sorted entry the canonical code
`codeVal`: the recorded `back` value evolves as code-plus-one with a shift at
every length change. -/
theorem codeLoop_codes (what1 : List Nat) (num : Nat) :
    ∀ r x st, x + r = num →
      st.codes.length = num →
      (∀ m, m < x → getL st.codes m = codeVal (fun i => getL what1 i) m) →
      st.z = (if x = 0 then getL what1 0 else getL what1 (x - 1)) →
      st.back = (if x = 0 then 0 else codeVal (fun i => getL what1 i) (x - 1) + 1) →
      ∀ m, m < num →
        getL (codeLoop what1 x r st).codes m = codeVal (fun i => getL what1 i) m := by
  intro r
  induction r with
  | zero =>
    intro x st hx hlen hdone _ _ m hm
    simp only [codeLoop]
    exact hdone m (by omega)
  | succ r ih =>
    intro x st hx hlen hdone hz hback m hm
    have hback1 : (if getL what1 x ≠ st.z then st.back <<< (getL what1 x - st.z)
        else st.back) = codeVal (fun i => getL what1 i) x := by
      rcases Nat.eq_zero_or_pos x with rfl | hxpos
      · rw [if_pos rfl] at hz hback
        rw [if_neg (by rw [hz]; simp), hback]
        rfl
      · have hx1 : x = (x - 1) + 1 := by omega
        rw [if_neg (by omega)] at hz hback
        by_cases hne : getL what1 x ≠ st.z
        · rw [if_pos hne, hback, hz]
          rw [hx1, codeVal]
          have : x - 1 + 1 - 1 = x - 1 := by omega
          rw [this]
        · rw [if_neg hne]
          push_neg at hne
          rw [hback]
          rw [hx1, codeVal]
          have h1 : x - 1 + 1 - 1 = x - 1 := by omega
          rw [h1]
          have h0 : getL what1 (x - 1 + 1) - getL what1 (x - 1) = 0 := by
            rw [← hx1, hne, hz]
            omega
          rw [h0, Nat.shiftLeft_zero]
    simp only [codeLoop]
    apply ih (x + 1)
    · omega
    · rw [List.length_set]; exact hlen
    · intro m' hm'
      rw [hback1]
      by_cases hmx : m' = x
      · subst hmx
        exact getL_set_self st.codes m' (codeVal (fun i => getL what1 i) m') (by omega)
      · rw [getL_set_ne _ _ (fun h => hmx h.symm)]
        exact hdone m' (by omega)
    · dsimp only
      rw [if_neg (show ¬ (x + 1 = 0) by omega), Nat.add_sub_cancel]
      by_cases hne : getL what1 x ≠ st.z
      · rw [if_pos hne]
      · rw [if_neg hne]
        push_neg at hne
        exact hne.symm
    · dsimp only
      rw [hback1, if_neg (show ¬ (x + 1 = 0) by omega), Nat.add_sub_cancel]
    · exact hm

/-- A step of `codeVal` at an unchanged length just increments. -/
theorem codeVal_step_eq (L : Nat → Nat) (m : Nat) (h : L (m + 1) = L m) :
    codeVal L (m + 1) = codeVal L m + 1 := by
  rw [codeVal]
  have : L (m + 1) - L m = 0 := by omega
  rw [this, Nat.shiftLeft_zero]

/-- C3: after `fill_buffer`'s table construction (nibble lengths, the exact
non-zero count, in-range `total`), two sorted entries with the same length
get pre-reversal codes that differ by exactly their distance in the sorted
(`when`) order, and an entry whose length exceeds its predecessor's gets the
predecessor's code plus one, shifted left by the length difference. -/
theorem canonical_code_property (what0 : List Nat) (total num : Nat)
    (h15 : ∀ i, getL what0 i ≤ 15)
    (htot : total ≤ what0.length)
    (hnum : num = ((List.range total).filter (fun i => getL what0 i ≠ 0)).length) :
    (∀ i j, i ≤ j → j < num →
      getL (fbSorted what0 total num) i = getL (fbSorted what0 total num) j →
      getL (fbCode what0 total num).codes j =
        getL (fbCode what0 total num).codes i + (j - i)) ∧
    (∀ m, m + 1 < num →
      getL (fbSorted what0 total num) m < getL (fbSorted what0 total num) (m + 1) →
      getL (fbCode what0 total num).codes (m + 1) =
        (getL (fbCode what0 total num).codes m + 1) <<<
          (getL (fbSorted what0 total num) (m + 1) - getL (fbSorted what0 total num) m)) := by
  have hNv : ∀ v, 1 ≤ v → v < 16 →
      getL (fbOcc what0 total num).number v = occCnt what0 v 0 total := by
    intro v h1 h2
    unfold fbOcc
    rw [occOuter_number what0 total 15 1 _ (by simp) v, if_pos (by omega)]
    simp only [getL_replicate_zero]
    omega
  have hwv : ∀ v, v ≤ 15 → winSum (fbOcc what0 total num).number 1 v =
      sumCnt what0 total v := by
    intro v
    induction v with
    | zero => intro _; rfl
    | succ v ihv =>
      intro hv
      rw [winSum_snoc, ihv (by omega), hNv (1 + v) (by omega) (by omega), sumCnt,
        Nat.add_comm 1 v]
  have hw15 : winSum (fbOcc what0 total num).number 1 15 = num := by
    rw [hwv 15 (le_refl 15), sumCnt_eq_filter what0 h15 total, hnum]
  have hnumle : num ≤ total := by
    rw [hnum]
    calc ((List.range total).filter (fun i => getL what0 i ≠ 0)).length
        ≤ (List.range total).length := List.length_filter_le _ _
      _ = total := List.length_range total
  have hmain := sortOuter_main (fbOcc what0 total num).number 15 1 0 what0
    (by rw [hw15]; omega)
  rw [hw15] at hmain
  have hs : ∀ p q, p ≤ q → q < num →
      getL (fbSorted what0 total num) p ≤ getL (fbSorted what0 total num) q := by
    intro p q h1 h2
    exact hmain.2 p q (by omega) h1 (by omega)
  have hcodes : ∀ m, m < num →
      getL (fbCode what0 total num).codes m =
        codeVal (fun i => getL (fbSorted what0 total num) i) m := by
    intro m hm
    unfold fbCode
    apply codeLoop_codes (fbSorted what0 total num) num num 0 _ (by omega)
      (by simp) (by intro m' hm'; omega) (by simp) (by simp) m hm
  constructor
  · intro i j hij hj hL
    have hrun : ∀ n, i ≤ n → n ≤ j →
        getL (fbSorted what0 total num) n = getL (fbSorted what0 total num) i := by
      intro n h1 h2
      have ha := hs i n h1 (by omega)
      have hb := hs n j h2 hj
      omega
    have hkey : ∀ n, i ≤ n → n ≤ j →
        codeVal (fun q => getL (fbSorted what0 total num) q) n =
          codeVal (fun q => getL (fbSorted what0 total num) q) i + (n - i) := by
      intro n
      induction n with
      | zero =>
        intro h1 _
        have : i = 0 := by omega
        subst this
        simp
      | succ n ihn =>
        intro h1 h2
        rcases Nat.lt_or_ge i (n + 1) with hlt | hge
        · have hstep : getL (fbSorted what0 total num) (n + 1) =
              getL (fbSorted what0 total num) n := by
            have h1' := hrun n (by omega) (by omega)
            have h2' := hrun (n + 1) (by omega) h2
            omega
          rw [codeVal_step_eq _ n hstep, ihn (by omega) (by omega)]
          omega
        · have : i = n + 1 := by omega
          subst this
          simp
    rw [hcodes j hj, hcodes i (by omega), hkey j hij (le_refl j)]
  · intro m hm hlt
    rw [hcodes (m + 1) hm, hcodes m (by omega)]
    rfl

/-- C3 witness: the spec's canonical-Huffman fixture `[3,3,3,3,3,2,4,4]`;
sorted entries 1 and 2 both have length 3, so their codes differ by one. -/
theorem canonical_code_property_witness :
    getL (fbCode [3, 3, 3, 3, 3, 2, 4, 4] 8 8).codes 2 =
      getL (fbCode [3, 3, 3, 3, 3, 2, 4, 4] 8 8).codes 1 + (2 - 1) :=
  (canonical_code_property [3, 3, 3, 3, 3, 2, 4, 4] 8 8
    (by intro i
        rcases i with _ | _ | _ | _ | _ | _ | _ | _ | i <;> simp [getL, List.getD])
    (by decide) (by decide)).1 1 2 (by decide) (by decide) (by decide)

/-- Low three bits as a remainder. -/
theorem mask7_eq_mod (x : Nat) : x &&& 7 = x % 8 := by
  have := Nat.and_pow_two_sub_one_eq_mod x 3
  norm_num at this
  exact this

/-- The primary-slot mask as a remainder. -/
theorem maskK_eq_mod (x k : Nat) : x &&& ((1 <<< k) - 1) = x % 2 ^ k := by
  rw [Nat.one_shiftLeft, Nat.and_pow_two_sub_one_eq_mod]

/-- A right shift is zero exactly on values below the power. -/
theorem shiftRight_eq_zero_iff (y e : Nat) : y >>> e = 0 ↔ y < 2 ^ e := by
  rw [Nat.shiftRight_eq_div_pow, Nat.div_eq_zero_iff (by positivity)]

/-- Base field of an overflow header. -/
theorem header_base (S e : Nat) (he : e ≤ 7) : ((S <<< 7) + (e <<< 4)) >>> 7 = S := by
  rw [Nat.shiftLeft_eq, Nat.shiftLeft_eq, Nat.shiftRight_eq_div_pow]
  have h7 : (2 : Nat) ^ 7 = 128 := by norm_num
  have h4 : (2 : Nat) ^ 4 = 16 := by norm_num
  rw [h7, h4]
  omega

/-- Extra-bits field of an overflow header. -/
theorem header_extra (S e : Nat) (he : e ≤ 7) :
    (((S <<< 7) + (e <<< 4)) >>> 4) &&& 7 = e := by
  rw [mask7_eq_mod, Nat.shiftLeft_eq, Nat.shiftLeft_eq, Nat.shiftRight_eq_div_pow]
  have h7 : (2 : Nat) ^ 7 = 128 := by norm_num
  have h4 : (2 : Nat) ^ 4 = 16 := by norm_num
  rw [h7, h4]
  omega

/-- Positions below the stride start are never written. -/
theorem strideFill_getL_lt (w l step k : Nat) :
    ∀ f z0 large idx, idx < z0 →
      getL (strideFill w l step k f z0 large) idx = getL large idx := by
  intro f
  induction f with
  | zero => intro z0 large idx _; rfl
  | succ f ih =>
    intro z0 large idx hlt
    simp only [strideFill]
    split
    · rw [ih _ _ _ (by omega), getL_set_ne _ _ (by omega)]
    · rfl

/-- Positions in a different residue class than the stride start are never
written. -/
theorem strideFill_getL_nemod (w l step k : Nat) (hstep : 0 < step) :
    ∀ f z0 large idx, idx % step ≠ z0 % step →
      getL (strideFill w l step k f z0 large) idx = getL large idx := by
  intro f
  induction f with
  | zero => intro z0 large idx _; rfl
  | succ f ih =>
    intro z0 large idx hne
    simp only [strideFill]
    split
    · rw [ih (z0 + step) _ idx (by rwa [Nat.add_mod_right]),
        getL_set_ne _ _ (by rintro rfl; exact hne rfl)]
    · rfl

/-- Every in-range position of the stride's residue class receives the
symbol's leaf entry, given enough fuel. -/
theorem strideFill_getL_cov (w l step k : Nat) (hstep : 0 < step) :
    ∀ f z0 large idx, z0 ≤ idx → idx % step = z0 % step → idx < 2 ^ k →
      idx < large.length → idx < z0 + f * step →
      getL (strideFill w l step k f z0 large) idx = (w <<< 7) + l := by
  intro f
  induction f with
  | zero => intro z0 large idx h1 _ _ _ h5; omega
  | succ f ih =>
    intro z0 large idx h1 h2 h3 hlen h5
    have hz0 : z0 >>> k = 0 := by
      rw [shiftRight_eq_zero_iff]
      omega
    simp only [strideFill, if_pos hz0]
    by_cases heq : idx = z0
    · subst heq
      rw [strideFill_getL_lt _ _ _ _ _ _ _ _ (by omega), getL_set_self _ _ _ hlen]
    · have hge : z0 + step ≤ idx := by
        have hmod : z0 ≡ idx [MOD step] := h2.symm
        have hdvd : step ∣ idx - z0 := (Nat.modEq_iff_dvd' h1).mp hmod
        have := Nat.le_of_dvd (by omega) hdvd
        omega
      have hmul : (f + 1) * step = f * step + step := Nat.succ_mul f step
      exact ih (z0 + step) _ idx hge (by rwa [Nat.add_mod_right])
        h3 (by rwa [List.length_set]) (by omega)

/-- The buffer-filling pass leaves a primary slot alone when no processed
short code's residue class covers it. -/
theorem primaryLoop_large_ne (what whenL samp : List Nat) (k : Nat) :
    ∀ r x st idx,
      (∀ j, x ≤ j → j < x + r → getL what j < k →
        idx % 2 ^ getL what j ≠ getL samp j % 2 ^ getL what j) →
      getL (primaryLoop what whenL samp k x r st).large idx = getL st.large idx := by
  intro r
  induction r with
  | zero => intro x st idx _; rfl
  | succ r ih =>
    intro x st idx hmiss
    simp only [primaryLoop]
    by_cases hb : getL what x < k
    · rw [if_pos hb]
      rw [ih (x + 1) _ idx (fun j h1 h2 h3 => hmiss j (by omega) (by omega) h3)]
      simp only
      rw [strideFill_getL_nemod _ _ _ _ (by rw [Nat.one_shiftLeft]; positivity) _ _ _ _
        (by rw [Nat.one_shiftLeft]; exact hmiss x (le_refl x) (by omega) hb)]
    · rw [if_neg hb]
      exact ih (x + 1) _ idx (fun j h1 h2 h3 => hmiss j (by omega) (by omega) h3)

/-- A primary slot covered by symbol `t`'s stride and by no other processed
short code ends with `t`'s leaf entry. -/
theorem primaryLoop_large_eq (what whenL samp : List Nat) (k t : Nat) :
    ∀ r x st idx, x ≤ t → t < x + r → getL what t < k →
      getL samp t ≤ idx → idx % 2 ^ getL what t = getL samp t % 2 ^ getL what t →
      idx < 2 ^ k → idx < st.large.length →
      (∀ j, x ≤ j → j < x + r → j ≠ t → getL what j < k →
        idx % 2 ^ getL what j ≠ getL samp j % 2 ^ getL what j) →
      getL (primaryLoop what whenL samp k x r st).large idx =
        (getL whenL t <<< 7) + getL what t := by
  intro r
  induction r with
  | zero => intro x st idx h1 h2; omega
  | succ r ih =>
    intro x st idx h1 h2 hLt hle hmod hidx hlen hmiss
    simp only [primaryLoop]
    by_cases hxt : x = t
    · subst hxt
      rw [if_pos hLt]
      rw [primaryLoop_large_ne what whenL samp k r (x + 1) _ idx
        (fun j ha hb hc => hmiss j (by omega) (by omega) (by omega) hc)]
      simp only
      have hstep : 0 < 1 <<< getL what x := by rw [Nat.one_shiftLeft]; positivity
      apply strideFill_getL_cov _ _ _ _ hstep _ _ _ _ hle
        (by rw [Nat.one_shiftLeft]; exact hmod) hidx hlen
      rw [Nat.one_shiftLeft, Nat.one_shiftLeft]
      have h1 : 2 ^ k ≤ 2 ^ k * 2 ^ getL what x :=
        Nat.le_mul_of_pos_right _ (by positivity)
      omega
    · have hrec := ih (x + 1) (if getL what x < k then
        ⟨strideFill (getL whenL x) (getL what x) (1 <<< getL what x) k (1 <<< k)
          (getL samp x) st.large, st.buf⟩
        else ⟨st.large, st.buf.set (getL samp x &&& ((1 <<< k) - 1)) (getL what x)⟩) idx
        (by omega) (by omega) hLt hle hmod hidx
      by_cases hb : getL what x < k
      · rw [if_pos hb] at hrec ⊢
        rw [hrec (by simp only; rw [strideFill_length]; exact hlen)
          (fun j ha hb' hc hd => hmiss j (by omega) (by omega) hc hd)]
      · rw [if_neg hb] at hrec ⊢
        rw [hrec (by simpa using hlen)
          (fun j ha hb' hc hd => hmiss j (by omega) (by omega) hc hd)]

/-- A scratch slot no processed long code maps to keeps its value. -/
theorem primaryLoop_buf_ne (what whenL samp : List Nat) (k : Nat) :
    ∀ r x st bidx,
      (∀ j, x ≤ j → j < x + r → ¬(k ≤ getL what j ∧ getL samp j % 2 ^ k = bidx)) →
      getL (primaryLoop what whenL samp k x r st).buf bidx = getL st.buf bidx := by
  intro r
  induction r with
  | zero => intro x st bidx _; rfl
  | succ r ih =>
    intro x st bidx hmiss
    simp only [primaryLoop]
    by_cases hb : getL what x < k
    · rw [if_pos hb]
      exact ih (x + 1) _ bidx (fun j h1 h2 => hmiss j (by omega) (by omega))
    · rw [if_neg hb]
      rw [ih (x + 1) _ bidx (fun j h1 h2 => hmiss j (by omega) (by omega))]
      simp only
      rw [maskK_eq_mod]
      exact getL_set_ne _ _ (fun h =>
        hmiss x (le_refl x) (by omega) ⟨by omega, h⟩)

/-- A scratch slot that exactly one processed long code maps to ends with
that code's length. -/
theorem primaryLoop_buf_eq (what whenL samp : List Nat) (k t : Nat) :
    ∀ r x st bidx, x ≤ t → t < x + r → k ≤ getL what t →
      getL samp t % 2 ^ k = bidx → bidx < st.buf.length →
      (∀ j, x ≤ j → j < x + r → j ≠ t →
        ¬(k ≤ getL what j ∧ getL samp j % 2 ^ k = bidx)) →
      getL (primaryLoop what whenL samp k x r st).buf bidx = getL what t := by
  intro r
  induction r with
  | zero => intro x st bidx h1 h2; omega
  | succ r ih =>
    intro x st bidx h1 h2 hLt hmap hlen hmiss
    simp only [primaryLoop]
    by_cases hxt : x = t
    · subst hxt
      rw [if_neg (by omega)]
      rw [primaryLoop_buf_ne what whenL samp k r (x + 1) _ bidx
        (fun j ha hb => hmiss j (by omega) (by omega) (by omega))]
      simp only
      rw [maskK_eq_mod, hmap]
      exact getL_set_self _ _ _ hlen
    · have hmiss' : ∀ j, x + 1 ≤ j → j < x + 1 + r → j ≠ t →
          ¬(k ≤ getL what j ∧ getL samp j % 2 ^ k = bidx) :=
        fun j ha hb hc => hmiss j (by omega) (by omega) hc
      by_cases hb : getL what x < k
      · rw [if_pos hb]
        exact ih (x + 1) _ bidx (by omega) (by omega) hLt hmap hlen hmiss'
      · rw [if_neg hb]
        apply ih (x + 1) _ bidx (by omega) (by omega) hLt hmap
          (by simp only; rw [List.length_set]; exact hlen) hmiss'

/-- A scratch slot some processed long code maps to ends non-zero (whatever
later long code overwrote it, all written lengths are at least `k ≥ 1`). -/
theorem primaryLoop_buf_marked (what whenL samp : List Nat) (k : Nat) (hk : 1 ≤ k) :
    ∀ r x st bidx,
      ((∃ j, x ≤ j ∧ j < x + r ∧ k ≤ getL what j ∧ getL samp j % 2 ^ k = bidx ∧
          bidx < st.buf.length) ∨ getL st.buf bidx ≠ 0) →
      getL (primaryLoop what whenL samp k x r st).buf bidx ≠ 0 := by
  intro r
  induction r with
  | zero =>
    intro x st bidx h
    rcases h with ⟨j, h1, h2, _⟩ | h
    · omega
    · exact h
  | succ r ih =>
    intro x st bidx h
    simp only [primaryLoop]
    by_cases hb : getL what x < k
    · rw [if_pos hb]
      apply ih (x + 1)
      rcases h with ⟨j, h1, h2, h3, h4, h5⟩ | h
      · have hjx : j ≠ x := by rintro rfl; omega
        exact Or.inl ⟨j, by omega, by omega, h3, h4, h5⟩
      · exact Or.inr h
    · rw [if_neg hb]
      apply ih (x + 1)
      rcases h with ⟨j, h1, h2, h3, h4, h5⟩ | h
      · by_cases hjx : j = x
        · subst hjx
          right
          simp only
          rw [maskK_eq_mod, h4, getL_set_self _ _ _ h5]
          omega
        · exact Or.inl ⟨j, by omega, by omega, h3, h4, by
            simp only; rw [List.length_set]; exact h5⟩
      · right
        simp only
        rcases getL_set_cases st.buf (getL samp x &&& ((1 <<< k) - 1)) bidx (getL what x)
          with hc | hc
        · rw [hc]; omega
        · rw [hc]; exact h

/-- The overflow scan never writes below its window. -/
theorem scanLoop_getL_lt (k : Nat) (buf : List Nat) :
    ∀ r x z large p, p < x → getL (scanLoop k buf x r z large).1 p = getL large p := by
  intro r
  induction r with
  | zero => intro x z large p _; rfl
  | succ r ih =>
    intro x z large p hp
    simp only [scanLoop]
    by_cases h0 : getL buf x ≠ 0
    · rw [if_pos h0]
      by_cases h8 : getL buf x - k > 8
      · rw [if_pos h8]
      · rw [if_neg h8, ih _ _ _ _ (by omega), getL_set_ne _ _ (by omega)]
    · rw [if_neg h0]
      exact ih _ _ _ _ (by omega)

/-- Contents of the scanned table: a marked slot holds the header built from
the running overflow sum, an unmarked one keeps its previous value. -/
theorem scanLoop_getL (k : Nat) (buf : List Nat) :
    ∀ r x z large p,
      (¬ ∃ i, x ≤ i ∧ i < x + r ∧ getL buf i ≠ 0 ∧ getL buf i - k > 8) →
      x + r ≤ large.length →
      getL (scanLoop k buf x r z large).1 p =
        if x ≤ p ∧ p < x + r ∧ getL buf p ≠ 0 then
          ((z + ovWin buf k x (p - x)) <<< 7) + ((getL buf p - k) <<< 4)
        else getL large p := by
  intro r
  induction r with
  | zero =>
    intro x z large p _ _
    rw [if_neg (by omega)]
    rfl
  | succ r ih =>
    intro x z large p hno hlen
    have hno' : ¬ ∃ i, x + 1 ≤ i ∧ i < x + 1 + r ∧ getL buf i ≠ 0 ∧ getL buf i - k > 8 := by
      rintro ⟨i, h1, h2, h3, h4⟩
      exact hno ⟨i, by omega, by omega, h3, h4⟩
    simp only [scanLoop]
    by_cases h0 : getL buf x ≠ 0
    · rw [if_pos h0]
      have h8 : ¬ getL buf x - k > 8 := fun h8 => hno ⟨x, le_refl x, by omega, h0, h8⟩
      rw [if_neg h8]
      rw [ih (x + 1) _ _ p hno' (by rw [List.length_set]; omega)]
      by_cases hp : x + 1 ≤ p ∧ p < x + 1 + r ∧ getL buf p ≠ 0
      · rw [if_pos hp, if_pos (by omega)]
        have hov : ovWin buf k x (p - x) =
            (if getL buf x ≠ 0 then 1 <<< (getL buf x - k) else 0) +
              ovWin buf k (x + 1) (p - x - 1) := by
          have hpx : p - x = (p - x - 1) + 1 := by omega
          rw [hpx]
          rfl
        rw [hov, if_pos h0]
        have : p - (x + 1) = p - x - 1 := by omega
        rw [this]
        have : z + 1 <<< (getL buf x - k) + ovWin buf k (x + 1) (p - x - 1) =
            z + (1 <<< (getL buf x - k) + ovWin buf k (x + 1) (p - x - 1)) := by omega
        rw [this]
      · rw [if_neg hp]
        by_cases hpx : p = x
        · subst hpx
          rw [if_pos ⟨le_refl p, by omega, h0⟩]
          have h0' : p - p = 0 := by omega
          rw [h0', ovWin]
          rw [getL_set_self _ _ _ (by omega)]
          omega
        · rw [if_neg (by omega), getL_set_ne _ _ (fun h => hpx h.symm)]
    · rw [if_neg h0]
      rw [ih (x + 1) _ _ p hno' (by omega)]
      by_cases hp : x + 1 ≤ p ∧ p < x + 1 + r ∧ getL buf p ≠ 0
      · rw [if_pos hp, if_pos (by omega)]
        have hov : ovWin buf k x (p - x) =
            (if getL buf x ≠ 0 then 1 <<< (getL buf x - k) else 0) +
              ovWin buf k (x + 1) (p - x - 1) := by
          have hpx : p - x = (p - x - 1) + 1 := by omega
          rw [hpx]
          rfl
        rw [hov, if_neg h0]
        have : p - (x + 1) = p - x - 1 := by omega
        rw [this]
        omega
      · rw [if_neg hp]
        by_cases hpx : p = x
        · subst hpx
          rw [if_neg (by push_neg at h0 ⊢; intro _ _; exact h0)]
        · rw [if_neg (by omega)]

/-- Splitting an overflow window. -/
theorem ovWin_split (buf : List Nat) (k : Nat) :
    ∀ a x b, ovWin buf k x (a + b) = ovWin buf k x a + ovWin buf k (x + a) b := by
  intro a
  induction a with
  | zero => intro x b; simp [ovWin]
  | succ a ih =>
    intro x b
    have h1 : a + 1 + b = (a + b) + 1 := by omega
    rw [h1, ovWin, ih (x + 1) b, ovWin]
    have h2 : x + 1 + a = x + (a + 1) := by omega
    rw [h2]
    omega

/-- The overflow leaf fill writes only inside its slot's reserved secondary
range. -/
theorem leafFill_getL_out (w l bs base extra : Nat) :
    ∀ f y large p,
      (p < base + (1 <<< bs) ∨ base + (1 <<< bs) + (1 <<< extra) ≤ p) →
      getL (leafFill w l bs base extra f y large) p = getL large p := by
  intro f
  induction f with
  | zero => intro y large p _; rfl
  | succ f ih =>
    intro y large p hp
    simp only [leafFill]
    split
    · next hy =>
      have hyb : y < 2 ^ extra := by rwa [← shiftRight_eq_zero_iff]
      rw [ih _ _ _ hp, getL_set_ne]
      rw [Nat.one_shiftLeft] at hp
      omega
    · rfl

/-- A zero-offset, zero-extra overflow fill is a single write at the slot's
base. -/
theorem leafFill_single (w l bs base : Nat) (large : List Nat) :
    leafFill w l bs base 0 1 0 large = large.set (base + (1 <<< bs)) ((w <<< 7) + l) := by
  simp [leafFill]

/-- The overflow leaf pass never touches the primary region. -/
theorem leafLoop_getL_low (what whenL samp : List Nat) (k : Nat) :
    ∀ r x large p, p < 1 <<< k →
      getL (leafLoop what whenL samp k x r large) p = getL large p := by
  intro r
  induction r with
  | zero => intro x large p _; rfl
  | succ r ih =>
    intro x large p hp
    simp only [leafLoop]
    split
    · exact ih _ _ _ hp
    · rw [ih _ _ _ hp, leafFill_getL_out _ _ _ _ _ _ _ _ _ (Or.inl (by omega))]

/-- The overflow leaf pass leaves a position alone when it lies in no
processed long code's reserved range (ranges read off the scanned table
`L0`, whose primary region the pass preserves). -/
theorem leafLoop_getL_miss (what whenL samp : List Nat) (k : Nat) (L0 : List Nat) :
    ∀ r x large p,
      (∀ q, q < 1 <<< k → getL large q = getL L0 q) →
      (∀ j, x ≤ j → j < x + r → k ≤ getL what j →
        p < (getL L0 (getL samp j &&& ((1 <<< k) - 1)) >>> 7) + (1 <<< k) ∨
        (getL L0 (getL samp j &&& ((1 <<< k) - 1)) >>> 7) + (1 <<< k) +
          (1 <<< ((getL L0 (getL samp j &&& ((1 <<< k) - 1)) >>> 4) &&& 7)) ≤ p) →
      getL (leafLoop what whenL samp k x r large) p = getL large p := by
  intro r
  induction r with
  | zero => intro x large p _ _; rfl
  | succ r ih =>
    intro x large p hprim hmiss
    simp only [leafLoop]
    split
    · next hb =>
      exact ih (x + 1) _ p hprim (fun j h1 h2 h3 => hmiss j (by omega) (by omega) h3)
    · next hb =>
      have hidx : getL samp x &&& ((1 <<< k) - 1) < 1 <<< k := by
        have h1 : getL samp x &&& ((1 <<< k) - 1) ≤ (1 <<< k) - 1 := Nat.and_le_right
        have h2 : 0 < 1 <<< k := by rw [Nat.one_shiftLeft]; positivity
        omega
      have hz : getL large (getL samp x &&& ((1 <<< k) - 1)) =
          getL L0 (getL samp x &&& ((1 <<< k) - 1)) := hprim _ hidx
      have hx := hmiss x (le_refl x) (by omega) (by omega)
      rw [ih (x + 1) _ p
        (by
          intro q hq
          rw [leafFill_getL_out _ _ _ _ _ _ _ _ _ (Or.inl (by omega))]
          exact hprim q hq)
        (fun j h1 h2 h3 => hmiss j (by omega) (by omega) h3)]
      rw [hz]
      exact leafFill_getL_out _ _ _ _ _ _ _ _ _ (by rcases hx with h | h; exacts [Or.inl h, Or.inr h])

/-- The overflow leaf pass writes symbol `t`'s entry at its slot's base when
`t`'s header has extra-bits 0 and every other long code's range misses that
cell. -/
theorem leafLoop_getL_value (what whenL samp : List Nat) (k : Nat) (L0 : List Nat)
    (t b : Nat) :
    ∀ r x large,
      (∀ q, q < 1 <<< k → getL large q = getL L0 q) →
      x ≤ t → t < x + r → k ≤ getL what t →
      getL L0 (getL samp t &&& ((1 <<< k) - 1)) = b <<< 7 →
      getL samp t >>> k = 0 →
      b + (1 <<< k) < large.length →
      (∀ j, x ≤ j → j < x + r → j ≠ t → k ≤ getL what j →
        b + (1 <<< k) < (getL L0 (getL samp j &&& ((1 <<< k) - 1)) >>> 7) + (1 <<< k) ∨
        (getL L0 (getL samp j &&& ((1 <<< k) - 1)) >>> 7) + (1 <<< k) +
          (1 <<< ((getL L0 (getL samp j &&& ((1 <<< k) - 1)) >>> 4) &&& 7)) ≤
            b + (1 <<< k)) →
      getL (leafLoop what whenL samp k x r large) (b + (1 <<< k)) =
        (getL whenL t <<< 7) + getL what t := by
  intro r
  induction r with
  | zero => intro x large _ h1 h2; omega
  | succ r ih =>
    intro x large hprim h1 h2 hLt hhdr hy0 hlen hmiss
    simp only [leafLoop]
    by_cases hxt : x = t
    · subst hxt
      rw [if_neg (by omega)]
      have hidx : getL samp x &&& ((1 <<< k) - 1) < 1 <<< k := by
        have ha : getL samp x &&& ((1 <<< k) - 1) ≤ (1 <<< k) - 1 := Nat.and_le_right
        have hb2 : 0 < 1 <<< k := by rw [Nat.one_shiftLeft]; positivity
        omega
      have hz : getL large (getL samp x &&& ((1 <<< k) - 1)) = b <<< 7 := by
        rw [hprim _ hidx, hhdr]
      rw [hz]
      have hbase : (b <<< 7) >>> 7 = b := by
        have := header_base b 0 (by omega)
        simpa using this
      have hextra : ((b <<< 7) >>> 4) &&& 7 = 0 := by
        have := header_extra b 0 (by omega)
        simpa using this
      rw [hbase, hextra, hy0, (show (1 : Nat) <<< 0 = 1 from rfl), leafFill_single]
      rw [leafLoop_getL_miss what whenL samp k L0 r (x + 1) _ _
        (by
          intro q hq
          rw [getL_set_ne _ _ (by omega)]
          exact hprim q hq)
        (fun j ha hb hc => hmiss j (by omega) (by omega) (by omega) hc)]
      exact getL_set_self _ _ _ hlen
    · have hnext : ∀ large2 : List Nat,
          (∀ q, q < 1 <<< k → getL large2 q = getL L0 q) →
          b + (1 <<< k) < large2.length →
          getL (leafLoop what whenL samp k (x + 1) r large2) (b + (1 <<< k)) =
            (getL whenL t <<< 7) + getL what t := by
        intro large2 hp2 hl2
        exact ih (x + 1) large2 hp2 (by omega) (by omega) hLt hhdr hy0 hl2
          (fun j ha hb hc hd => hmiss j (by omega) (by omega) hc hd)
      split
      · exact hnext large hprim hlen
      · apply hnext
        · intro q hq
          rw [leafFill_getL_out _ _ _ _ _ _ _ _ _ (Or.inl (by omega))]
          exact hprim q hq
        · rw [leafFill_length]
          exact hlen

/-- Collapsing nested power-of-two remainders. -/
theorem mod_pow_mod (a L1 L2 : Nat) (h : L2 ≤ L1) : a % 2 ^ L1 % 2 ^ L2 = a % 2 ^ L2 :=
  Nat.mod_mod_of_dvd a (pow_dvd_pow 2 h)

/-- C4 (amended): take a successful `fill_buffer` call (`ret = 0`) with a
decoder granularity `8 ≤ k ≤ 10`, a table of at most 0xC00 cells, nibble
lengths, in-range bit-reversed codes (`samp i < 2 ^ length i`) that are
prefix-free (no two agree modulo `2 ^ min` of their lengths).  Then for a
symbol `t` of length `L ≤ k`: if `L < k`, every primary index below `2 ^ k`
whose low `L` bits equal `samp t` holds `t`'s leaf `(when t <<< 7) + L`;
if `L = k`, the primary slot `samp t` holds an overflow header `b <<< 7`
whose secondary cell `b + 2 ^ k` holds `t`'s leaf. -/
theorem primary_fill_populates (large0 what0 : List Nat) (total num k t : Nat)
    (hk8 : 8 ≤ k) (hk10 : k ≤ 10)
    (hlarge : large0.length ≤ 0xC00)
    (ht : t < num)
    (hnib : ∀ i, getL what0 i ≤ 15)
    (hsamp : ∀ i, i < num → getL (fbCode what0 total num).samp i <
      2 ^ getL (fbSorted what0 total num) i)
    (hpf : ∀ i j, i < num → j < num → i ≠ j →
      getL (fbCode what0 total num).samp i %
        2 ^ min (getL (fbSorted what0 total num) i) (getL (fbSorted what0 total num) j) ≠
      getL (fbCode what0 total num).samp j %
        2 ^ min (getL (fbSorted what0 total num) i) (getL (fbSorted what0 total num) j))
    (hret : (fill_buffer large0 what0 total num k).ret = 0)
    (hLt : getL (fbSorted what0 total num) t ≤ k) :
    (getL (fbSorted what0 total num) t < k →
      ∀ idx, idx < 2 ^ k →
        idx % 2 ^ getL (fbSorted what0 total num) t = getL (fbCode what0 total num).samp t →
        getL (fill_buffer large0 what0 total num k).large idx =
          (getL (fbOcc what0 total num).whenL t <<< 7) + getL (fbSorted what0 total num) t) ∧
    (getL (fbSorted what0 total num) t = k →
      ∃ b, getL (fill_buffer large0 what0 total num k).large
          (getL (fbCode what0 total num).samp t) = b <<< 7 ∧
        getL (fill_buffer large0 what0 total num k).large (b + 2 ^ k) =
          (getL (fbOcc what0 total num).whenL t <<< 7) + k) := by
  have honek : (1 : Nat) <<< k = 2 ^ k := Nat.one_shiftLeft k
  have hpk : 2 ^ k ≤ 0x400 := by
    calc (2 : Nat) ^ k ≤ 2 ^ 10 := Nat.pow_le_pow_right (by omega) hk10
      _ = 0x400 := by norm_num
  have hP4 : fbPrimary large0 what0 total num k =
      primaryLoop (fbSorted what0 total num) (fbOcc what0 total num).whenL
        (fbCode what0 total num).samp k 0 num
        ⟨fbExtend large0, List.replicate (1 <<< k) 0⟩ := rfl
  have hL4len : (fbPrimary large0 what0 total num k).large.length = 0xC00 := by
    rw [hP4, primaryLoop_large_length]
    simp only [fbExtend, List.length_append, List.length_replicate]
    omega
  have hW15 : ∀ p, getL (fbSorted what0 total num) p ≤ 15 :=
    fbSorted_le what0 total num hnib
  have hble : ∀ i, getL (fbPrimary large0 what0 total num k).buf i ≤ 15 := by
    apply primaryLoop_buf_le _ _ _ _ hW15
    intro i
    rw [getL_replicate_zero]
    omega
  have hbge : ∀ i, getL (fbPrimary large0 what0 total num k).buf i ≠ 0 →
      k ≤ getL (fbPrimary large0 what0 total num k).buf i := by
    apply primaryLoop_buf_ge
    intro i hi
    rw [getL_replicate_zero] at hi
    omega
  have hnobad : ¬ ∃ i, 0 ≤ i ∧ i < 0 + 1 <<< k ∧
      getL (fbPrimary large0 what0 total num k).buf i ≠ 0 ∧
      getL (fbPrimary large0 what0 total num k).buf i - k > 8 := by
    rintro ⟨i, -, -, h3, h4⟩
    have := hble i
    omega
  rcases hsc : scanLoop k (fbPrimary large0 what0 total num k).buf 0 (1 <<< k) 0
    (fbPrimary large0 what0 total num k).large with ⟨largeS, zS, flag⟩
  have hsum := scanLoop_sum k (fbPrimary large0 what0 total num k).buf (1 <<< k) 0 0
    (fbPrimary large0 what0 total num k).large hnobad
  rw [hsc] at hsum
  simp only at hsum
  obtain ⟨hzS, hflag⟩ := hsum
  subst hflag
  have hz511 : zS ≤ 0x1FF := by
    by_contra hz
    unfold fill_buffer at hret
    rw [hsc] at hret
    simp only [Bool.false_eq_true] at hret
    rw [if_pos (by omega)] at hret
    simp at hret
  have hfin : (fill_buffer large0 what0 total num k).large =
      leafLoop (fbSorted what0 total num) (fbOcc what0 total num).whenL
        (fbCode what0 total num).samp k 0 num largeS := by
    unfold fill_buffer
    rw [hsc]
    simp only [Bool.false_eq_true]
    rw [if_neg (by omega)]
  have hlargeSlen : largeS.length = 0xC00 := by
    have := scanLoop_large_length k (fbPrimary large0 what0 total num k).buf
      (1 <<< k) 0 0 (fbPrimary large0 what0 total num k).large
    rw [hsc] at this
    simp only at this
    rw [this, hL4len]
  have hscan : ∀ p, getL largeS p =
      if 0 ≤ p ∧ p < 0 + 1 <<< k ∧ getL (fbPrimary large0 what0 total num k).buf p ≠ 0 then
        ((0 + ovWin (fbPrimary large0 what0 total num k).buf k 0 (p - 0)) <<< 7) +
          ((getL (fbPrimary large0 what0 total num k).buf p - k) <<< 4)
      else getL (fbPrimary large0 what0 total num k).large p := by
    intro p
    have := scanLoop_getL k (fbPrimary large0 what0 total num k).buf (1 <<< k) 0 0
      (fbPrimary large0 what0 total num k).large p hnobad (by rw [hL4len, honek]; omega)
    rw [hsc] at this
    exact this
  constructor
  · -- short code: every covered primary index holds the leaf
    intro hAlt idx hidx hmod
    have hst : getL (fbCode what0 total num).samp t <
        2 ^ getL (fbSorted what0 total num) t := hsamp t ht
    have hmod' : idx % 2 ^ getL (fbSorted what0 total num) t =
        getL (fbCode what0 total num).samp t %
          2 ^ getL (fbSorted what0 total num) t := by
      rw [Nat.mod_eq_of_lt hst]
      exact hmod
    have hprim_val : getL (fbPrimary large0 what0 total num k).large idx =
        (getL (fbOcc what0 total num).whenL t <<< 7) + getL (fbSorted what0 total num) t := by
      rw [hP4]
      apply primaryLoop_large_eq _ _ _ k t num 0 _ idx (by omega) (by omega) hAlt
        (by rw [← hmod]; exact Nat.mod_le idx _) hmod' hidx
        (by simp only [fbExtend, List.length_append, List.length_replicate]; omega)
      intro j _ hj hjt hjk heq
      have hmin : min (getL (fbSorted what0 total num) t) (getL (fbSorted what0 total num) j) ≤
          getL (fbSorted what0 total num) t := Nat.min_le_left _ _
      have hminj : min (getL (fbSorted what0 total num) t) (getL (fbSorted what0 total num) j) ≤
          getL (fbSorted what0 total num) j := Nat.min_le_right _ _
      apply hpf t j ht (by omega) (fun h => hjt h.symm)
      have e1 := congrArg (· % 2 ^ min (getL (fbSorted what0 total num) t)
        (getL (fbSorted what0 total num) j)) hmod'
      have e2 := congrArg (· % 2 ^ min (getL (fbSorted what0 total num) t)
        (getL (fbSorted what0 total num) j)) heq
      simp only [mod_pow_mod _ _ _ hmin, mod_pow_mod _ _ _ hminj] at e1 e2
      rw [← e1, ← e2]
    have hbuf0 : getL (fbPrimary large0 what0 total num k).buf idx = 0 := by
      rw [hP4]
      rw [primaryLoop_buf_ne _ _ _ k num 0 _ idx]
      · exact getL_replicate_zero _ _
      · rintro j - hj ⟨hjk, hjmap⟩
        have hjt : j ≠ t := by
          intro h
          subst h
          omega
        apply hpf t j ht (by omega) (fun h => hjt h.symm)
        have hminv : min (getL (fbSorted what0 total num) t)
            (getL (fbSorted what0 total num) j) = getL (fbSorted what0 total num) t := by
          omega
        rw [hminv]
        have e2 := congrArg (· % 2 ^ getL (fbSorted what0 total num) t) hjmap
        simp only [mod_pow_mod _ _ _ (by omega : getL (fbSorted what0 total num) t ≤ k)] at e2
        rw [← hmod', e2]
    rw [hfin]
    rw [leafLoop_getL_low _ _ _ _ _ _ _ _ (by rw [honek]; exact hidx)]
    rw [hscan idx, if_neg (by simp [hbuf0])]
    exact hprim_val
  · -- length-k code: header plus single secondary leaf
    intro hBeq
    have hst : getL (fbCode what0 total num).samp t < 2 ^ k := by
      have := hsamp t ht
      rwa [hBeq] at this
    have hstmod : getL (fbCode what0 total num).samp t % 2 ^ k =
        getL (fbCode what0 total num).samp t := Nat.mod_eq_of_lt hst
    have hmissbuf : ∀ j, j < num → j ≠ t →
        ¬(k ≤ getL (fbSorted what0 total num) j ∧
          getL (fbCode what0 total num).samp j % 2 ^ k =
            getL (fbCode what0 total num).samp t) := by
      rintro j hj hjt ⟨hjk, hjmap⟩
      apply hpf t j ht hj (fun h => hjt h.symm)
      have hminv : min (getL (fbSorted what0 total num) t)
          (getL (fbSorted what0 total num) j) = k := by
        omega
      rw [hminv]
      have e2 := congrArg (· % 2 ^ k) hjmap
      simp only [mod_pow_mod _ _ _ (le_refl k)] at e2
      rw [e2]
    have hbuft : getL (fbPrimary large0 what0 total num k).buf
        (getL (fbCode what0 total num).samp t) = k := by
      rw [hP4]
      rw [primaryLoop_buf_eq _ _ _ k t num 0 _ _ (by omega) (by omega) (by omega) hstmod
        (by simp only [List.length_replicate]; rw [honek]; exact hst)
        (fun j _ hj hjt => hmissbuf j (by omega) hjt)]
      exact hBeq
    have hhdr : getL largeS (getL (fbCode what0 total num).samp t) =
        ovWin (fbPrimary large0 what0 total num k).buf k 0
          (getL (fbCode what0 total num).samp t) <<< 7 := by
      rw [hscan, if_pos ⟨by omega, by rw [honek]; omega, by rw [hbuft]; omega⟩]
      simp only [Nat.zero_add, Nat.sub_zero, hbuft, Nat.sub_self]
      rfl
    refine ⟨ovWin (fbPrimary large0 what0 total num k).buf k 0
      (getL (fbCode what0 total num).samp t), ?_, ?_⟩
    · rw [hfin]
      rw [leafLoop_getL_low _ _ _ _ _ _ _ _ (by rw [honek]; exact hst)]
      exact hhdr
    · have hble15 : getL (fbPrimary large0 what0 total num k).buf
          (getL (fbCode what0 total num).samp t) ≠ 0 := by
        rw [hbuft]; omega
      have hbbound : ovWin (fbPrimary large0 what0 total num k).buf k 0
          (getL (fbCode what0 total num).samp t) ≤ zS := by
        rw [hzS, Nat.zero_add]
        have hsplit := ovWin_split (fbPrimary large0 what0 total num k).buf k
          (getL (fbCode what0 total num).samp t)
          0 ((1 <<< k) - getL (fbCode what0 total num).samp t)
        rw [show getL (fbCode what0 total num).samp t +
            ((1 <<< k) - getL (fbCode what0 total num).samp t) = 1 <<< k from by
          rw [honek]; omega] at hsplit
        omega
      rw [hfin]
      have hmask : getL (fbCode what0 total num).samp t &&& ((1 <<< k) - 1) =
          getL (fbCode what0 total num).samp t := by
        rw [maskK_eq_mod, hstmod]
      have hval := leafLoop_getL_value (fbSorted what0 total num)
        (fbOcc what0 total num).whenL (fbCode what0 total num).samp k largeS t
        (ovWin (fbPrimary large0 what0 total num k).buf k 0
          (getL (fbCode what0 total num).samp t)) num 0 largeS
        (fun q _ => rfl) (by omega) (by omega) (by omega)
        (by rw [hmask]; exact hhdr)
        (by rw [shiftRight_eq_zero_iff]; exact hst)
        (by rw [hlargeSlen, honek]; omega)
      rw [honek] at hval
      rw [hval, hBeq]
      -- remaining: every other long code's reserved range misses the target
      intro j _ hj hjt hjk
      rw [← honek]
      have hbj : getL (fbCode what0 total num).samp j &&& ((1 <<< k) - 1) =
          getL (fbCode what0 total num).samp j % 2 ^ k := maskK_eq_mod _ k
      have hbjne : getL (fbCode what0 total num).samp j % 2 ^ k ≠
          getL (fbCode what0 total num).samp t :=
        fun h => hmissbuf j (by omega) hjt ⟨hjk, h⟩
      have hbjlt : getL (fbCode what0 total num).samp j % 2 ^ k < 2 ^ k :=
        Nat.mod_lt _ (by positivity)
      have hbjmark : getL (fbPrimary large0 what0 total num k).buf
          (getL (fbCode what0 total num).samp j % 2 ^ k) ≠ 0 := by
        rw [hP4]
        apply primaryLoop_buf_marked _ _ _ k (by omega) num 0 _ _
        exact Or.inl ⟨j, by omega, by omega, hjk, rfl,
          by simp only [List.length_replicate]; rw [honek]; exact hbjlt⟩
      have hSj : getL largeS (getL (fbCode what0 total num).samp j % 2 ^ k) =
          (ovWin (fbPrimary large0 what0 total num k).buf k 0
            (getL (fbCode what0 total num).samp j % 2 ^ k) <<< 7) +
          ((getL (fbPrimary large0 what0 total num k).buf
            (getL (fbCode what0 total num).samp j % 2 ^ k) - k) <<< 4) := by
        rw [hscan, if_pos ⟨by omega, by rw [honek]; omega, hbjmark⟩]
        simp
      have hej7 : getL (fbPrimary large0 what0 total num k).buf
          (getL (fbCode what0 total num).samp j % 2 ^ k) - k ≤ 7 := by
        have := hble (getL (fbCode what0 total num).samp j % 2 ^ k)
        omega
      rw [hbj, hSj, header_base _ _ hej7, header_extra _ _ hej7]
      rcases Nat.lt_or_ge (getL (fbCode what0 total num).samp j % 2 ^ k)
        (getL (fbCode what0 total num).samp t) with hcase | hcase
      · -- earlier slot: its whole range ends before our base
        right
        have hsplit := ovWin_split (fbPrimary large0 what0 total num k).buf k
          (getL (fbCode what0 total num).samp j % 2 ^ k) 0
          (getL (fbCode what0 total num).samp t -
            getL (fbCode what0 total num).samp j % 2 ^ k)
        rw [show getL (fbCode what0 total num).samp j % 2 ^ k +
            (getL (fbCode what0 total num).samp t -
              getL (fbCode what0 total num).samp j % 2 ^ k) =
            getL (fbCode what0 total num).samp t from by omega] at hsplit
        rw [Nat.zero_add] at hsplit
        have hfirst : 1 <<< (getL (fbPrimary large0 what0 total num k).buf
            (getL (fbCode what0 total num).samp j % 2 ^ k) - k) ≤
            ovWin (fbPrimary large0 what0 total num k).buf k
              (getL (fbCode what0 total num).samp j % 2 ^ k)
              (getL (fbCode what0 total num).samp t -
                getL (fbCode what0 total num).samp j % 2 ^ k) := by
          rw [show getL (fbCode what0 total num).samp t -
              getL (fbCode what0 total num).samp j % 2 ^ k =
              (getL (fbCode what0 total num).samp t -
                getL (fbCode what0 total num).samp j % 2 ^ k - 1) + 1 from by omega]
          rw [ovWin]
          rw [if_pos hbjmark]
          omega
        omega
      · -- later slot: its base starts past ours
        left
        have hne2 : getL (fbCode what0 total num).samp t <
            getL (fbCode what0 total num).samp j % 2 ^ k := by omega
        have hsplit := ovWin_split (fbPrimary large0 what0 total num k).buf k
          (getL (fbCode what0 total num).samp t + 1) 0
          (getL (fbCode what0 total num).samp j % 2 ^ k -
            (getL (fbCode what0 total num).samp t + 1))
        rw [show getL (fbCode what0 total num).samp t + 1 +
            (getL (fbCode what0 total num).samp j % 2 ^ k -
              (getL (fbCode what0 total num).samp t + 1)) =
            getL (fbCode what0 total num).samp j % 2 ^ k from by omega] at hsplit
        have hstep : ovWin (fbPrimary large0 what0 total num k).buf k 0
            (getL (fbCode what0 total num).samp t + 1) =
            ovWin (fbPrimary large0 what0 total num k).buf k 0
              (getL (fbCode what0 total num).samp t) +
            (if getL (fbPrimary large0 what0 total num k).buf
                (getL (fbCode what0 total num).samp t) ≠ 0 then
              1 <<< (getL (fbPrimary large0 what0 total num k).buf
                (getL (fbCode what0 total num).samp t) - k) else 0) := by
          have := ovWin_split (fbPrimary large0 what0 total num k).buf k
            (getL (fbCode what0 total num).samp t) 0 1
          rw [Nat.zero_add] at this
          rw [this]
          rw [ovWin, ovWin]
          omega
        rw [hstep, if_pos hble15, hbuft, Nat.sub_self] at hsplit
        omega

set_option maxRecDepth 10000 in
/-- C4 counterexample: hand `fill_buffer` the three length-1 codes
`[1, 1, 1]` (not prefix-free: all three canonical codes collide at 0 after
truncation).  The call still returns 0, symbol 0 has length 1 and
bit-reversed code 0, primary index 0 matches that code, yet `large[0]` does
not hold symbol 0's leaf `(when 0 <<< 7) + 1` — a colliding later symbol
overwrote the slot, so the populated-entry claim fails without a
prefix-freeness hypothesis. -/
theorem primary_fill_collision_cex :
    (fill_buffer (List.replicate 0x600 0) [1, 1, 1] 3 3 8).ret = 0 ∧
    getL (fbSorted [1, 1, 1] 3 3) 0 = 1 ∧
    getL (fbCode [1, 1, 1] 3 3).samp 0 = 0 ∧
    getL (fill_buffer (List.replicate 0x600 0) [1, 1, 1] 3 3 8).large 0 ≠
      (getL (fbOcc [1, 1, 1] 3 3).whenL 0 <<< 7) + 1 := by
  decide

set_option maxRecDepth 10000 in
/-- Witness for the amended C4 theorem: lengths `[1, 8]`, `k = 8`,
symbol 1 (length exactly `k`) gets an overflow header and secondary leaf. -/
theorem primary_fill_populates_witness :
    ∃ b, getL (fill_buffer (List.replicate 0x600 0) [1, 8] 2 2 8).large
        (getL (fbCode [1, 8] 2 2).samp 1) = b <<< 7 ∧
      getL (fill_buffer (List.replicate 0x600 0) [1, 8] 2 2 8).large (b + 2 ^ 8) =
        (getL (fbOcc [1, 8] 2 2).whenL 1 <<< 7) + 8 :=
  (primary_fill_populates (List.replicate 0x600 0) [1, 8] 2 2 8 1
    (by decide) (by decide)
    (by rw [List.length_replicate]; decide)
    (by decide)
    (by intro i; rcases i with _ | _ | n <;> simp [getL])
    (by decide)
    (by intro i j hi hj hne; interval_cases i <;> interval_cases j <;> revert hne <;> decide)
    (by decide)
    (by decide)).2 (by decide)

end EdlSpec
